import Mathlib
set_option maxRecDepth 100000

/-!
Verification of the esimov/triangle image-triangulation library against its
natural-language specification.

The development shallowly embeds the Go sources:
* `delaunay.go` — incremental Bowyer–Watson triangulation (`Init`, `Insert`);
* `imop.go` — `Grayscale`, `convolutionFilter`, `setBlurMatrix`, `setEdgeMatrix`;
* `process.go` — the per-triangle centroid colour sampling of the two `Draw` methods;
* `seed.go` — the Lehmer pseudo-random generator `nextLongRand` used by `addNoise`;
* the sample-point generator `GetEdgePoints` (detector package, part_006).

Go `int` arithmetic is embedded as `ℤ`.  Go `float64`/`float32` arithmetic is
embedded exactly: every float value is a dyadic rational `m * 2 ^ e` (`Dy`
below), and each arithmetic operation rounds its exact result to 53
(respectively 24) significant bits with IEEE round-to-nearest, ties-to-even.
Non-finite float results (division by zero) are represented by `none` in
`Option Dy`; Go's conversion of a non-finite float to an integer is
implementation-specific, and no theorem below depends on the value our model
assigns to that branch.
-/

namespace TriangleGo

/-- Dyadic rational `m * 2 ^ e`: the exact value of a finite IEEE binary
floating point number. -/
structure Dy where
  m : ℤ
  e : ℤ
deriving DecidableEq, Repr

namespace Dy

/-- Rational value represented by a dyadic. -/
def toQ (x : Dy) : ℚ := (x.m : ℚ) * 2 ^ x.e

/-- Fuel-driven binary logarithm: `lg2F f n = ⌊log₂ n⌋` whenever `n ≤ f` and
`0 < n`.  Structural recursion on the fuel keeps it kernel-reducible. -/
def lg2F : ℕ → ℕ → ℕ
  | 0, _ => 0
  | f + 1, n => if n ≤ 1 then 0 else lg2F f (n / 2) + 1

/-- Floor of the binary logarithm of a positive natural number. -/
def natLg (n : ℕ) : ℕ := lg2F n n

/-- Number of binary digits of a natural number (`0` for `0`). -/
def bitlen (n : ℕ) : ℕ := if n = 0 then 0 else natLg n + 1

/-- Round `m / 2 ^ s` to the nearest integer, ties to even. -/
def rshRNE (m s : ℕ) : ℕ :=
  if 2 * (m % 2 ^ s) < 2 ^ s then m / 2 ^ s
  else if 2 ^ s < 2 * (m % 2 ^ s) then m / 2 ^ s + 1
  else if (m / 2 ^ s) % 2 = 0 then m / 2 ^ s else m / 2 ^ s + 1

/-- Round a dyadic to `p` significant bits (round to nearest, ties to even).
This is IEEE-754 rounding for the magnitudes arising in this development
(no overflow or underflow to subnormals occurs in any modelled computation). -/
def norm (p : ℕ) (x : Dy) : Dy :=
  if bitlen x.m.natAbs ≤ p then x
  else
    let s := bitlen x.m.natAbs - p
    let q := rshRNE x.m.natAbs s
    ⟨if x.m < 0 then -(q : ℤ) else (q : ℤ), x.e + s⟩

/-- Correctly rounded multiplication at precision `p`. -/
def mulD (p : ℕ) (a b : Dy) : Dy := norm p ⟨a.m * b.m, a.e + b.e⟩

/-- Correctly rounded addition at precision `p`. -/
def addD (p : ℕ) (a b : Dy) : Dy :=
  if b.e ≤ a.e then norm p ⟨a.m * 2 ^ (a.e - b.e).toNat + b.m, b.e⟩
  else norm p ⟨b.m * 2 ^ (b.e - a.e).toNat + a.m, a.e⟩

/-- Negation (exact). -/
def negD (a : Dy) : Dy := ⟨-a.m, a.e⟩

/-- Correctly rounded subtraction at precision `p`. -/
def subD (p : ℕ) (a b : Dy) : Dy := addD p a (negD b)

/-- Conversion of a (Go) integer to a float of precision `p`. -/
def i2f (p : ℕ) (n : ℤ) : Dy := norm p ⟨n, 0⟩

/-- Strict less-than test on dyadics. -/
def bltD (a b : Dy) : Bool :=
  if a.e ≤ b.e then a.m < b.m * 2 ^ (b.e - a.e).toNat
  else a.m * 2 ^ (a.e - b.e).toNat < b.m

/-- Correctly rounded division at precision `p`; `none` when the divisor is
zero (Go produces `±Inf` there). -/
def divD (p : ℕ) (a b : Dy) : Option Dy :=
  if b.m = 0 then none
  else if a.m = 0 then some ⟨0, 0⟩
  else
    let na := bitlen a.m.natAbs
    let nb := bitlen b.m.natAbs
    let k : ℤ := (nb : ℤ) - na + p + 1
    let A := a.m.natAbs * 2 ^ k.toNat
    let B := b.m.natAbs * 2 ^ (-k).toNat
    let Q := A / B
    let R := A % B
    let s := bitlen Q - p
    let q0 := Q / 2 ^ s
    let r0 := Q % 2 ^ s
    let T := r0 * B + R
    let Hf := 2 ^ (s - 1) * B
    let q' := if T < Hf then q0
      else if Hf < T then q0 + 1
      else if q0 % 2 = 0 then q0 else q0 + 1
    let sgn : Bool := (decide (a.m < 0)).xor (decide (b.m < 0))
    some ⟨if sgn then -(q' : ℤ) else (q' : ℤ), a.e - b.e - k + s⟩

/-- Go's conversion of a finite float to `int`: truncation toward zero. -/
def truncD (x : Dy) : ℤ :=
  if 0 ≤ x.e then x.m * 2 ^ x.e.toNat
  else if x.m < 0 then -((x.m.natAbs / 2 ^ (-x.e).toNat : ℕ) : ℤ)
  else ((x.m.natAbs / 2 ^ (-x.e).toNat : ℕ) : ℤ)

end Dy

/-- Lifted multiplication on possibly non-finite floats. -/
def omulD (p : ℕ) (a b : Option Dy) : Option Dy :=
  match a, b with
  | some a, some b => some (Dy.mulD p a b)
  | _, _ => none

/-- Go's conversion of a float to `int`.  For non-finite values the Go result
is implementation-specific; the model returns `0` and no theorem depends on
this branch. -/
def otruncD (x : Option Dy) : ℤ :=
  match x with
  | some x => Dy.truncD x
  | none => 0

/-- A point handed to the triangulator (`Point`, delaunay.go:3). -/
structure Point where
  x : ℤ
  y : ℤ
deriving DecidableEq, Repr

/-- A triangle vertex (`Node`, delaunay.go:7). -/
structure Node where
  X : ℤ
  Y : ℤ
deriving DecidableEq, Repr

/-- Stored circumcircle (`circle`, delaunay.go:11): integer-truncated centre
and integer squared radius. -/
structure Circle where
  x : ℤ
  y : ℤ
  radius : ℤ
deriving DecidableEq, Repr

/-- `newNode` (delaunay.go:15). -/
def newNode (x y : ℤ) : Node := ⟨x, y⟩

/-- The exact `float64` value of the literal `0.0001` (delaunay.go:29). -/
def c0001 : Dy := ⟨7378697629483821, -66⟩

/-- `Node.isEq` (delaunay.go:19): absolute coordinate differences, converted
to `float64`, are compared against `0.0001`. -/
def nodeIsEq (n p : Node) : Bool :=
  let dx := n.X - p.X
  let dy := n.Y - p.Y
  let dx := if dx < 0 then -dx else dx
  let dy := if dy < 0 then -dy else dy
  Dy.bltD (Dy.i2f 53 dx) c0001 && Dy.bltD (Dy.i2f 53 dy) c0001

/-- An unordered pair of nodes (`edge`, delaunay.go:35; the source stores the
two nodes of `newEdge` in a slice). -/
structure Edge where
  n0 : Node
  n1 : Node
deriving DecidableEq, Repr

/-- `newEdge` (delaunay.go:39). -/
def newEdge (p0 p1 : Node) : Edge := ⟨p0, p1⟩

/-- `edge.isEq` (delaunay.go:44): unordered equality through `Node.isEq`. -/
def edgeIsEq (e f : Edge) : Bool :=
  (nodeIsEq e.n0 f.n0 && nodeIsEq e.n1 f.n1) ||
  (nodeIsEq e.n0 f.n1 && nodeIsEq e.n1 f.n0)

/-- `Triangle` (delaunay.go:57): three nodes, three edges, circumcircle. -/
structure Triangle where
  n0 : Node
  n1 : Node
  n2 : Node
  e0 : Edge
  e1 : Edge
  e2 : Edge
  circle : Circle
deriving DecidableEq, Repr

/-- The node slice `t.Nodes` of a triangle. -/
def Triangle.NodesL (t : Triangle) : List Node := [t.n0, t.n1, t.n2]

/-- `newTriangle` (delaunay.go:65): nodes, edges and the circumcircle,
whose centre is computed in `float64` and truncated to `int`, and whose
squared radius is computed from the truncated centre in `int` arithmetic.
`s = 1.0 / (2.0 * (float64(ax*by) - float64(ay*bx)))` is `±Inf` for a
degenerate (collinear) triple; the stored centre is then an
implementation-specific integer in Go (`none` branch of `otruncD` here). -/
def newTriangle (p0 p1 p2 : Node) : Triangle :=
  let ax := p1.X - p0.X
  let ay := p1.Y - p0.Y
  let bx := p2.X - p0.X
  let byv := p2.Y - p0.Y
  let m := p1.X * p1.X - p0.X * p0.X + p1.Y * p1.Y - p0.Y * p0.Y
  let u := p2.X * p2.X - p0.X * p0.X + p2.Y * p2.Y - p0.Y * p0.Y
  let s := Dy.divD 53 ⟨1, 0⟩
    (Dy.mulD 53 ⟨2, 0⟩ (Dy.subD 53 (Dy.i2f 53 (ax * byv)) (Dy.i2f 53 (ay * bx))))
  let cx := otruncD (omulD 53 (some (Dy.i2f 53 ((p2.Y - p0.Y) * m + (p0.Y - p1.Y) * u))) s)
  let cy := otruncD (omulD 53 (some (Dy.i2f 53 ((p0.X - p2.X) * m + (p1.X - p0.X) * u))) s)
  let dx := p0.X - cx
  let dy := p0.Y - cy
  { n0 := p0, n1 := p1, n2 := p2,
    e0 := newEdge p0 p1, e1 := newEdge p1 p2, e2 := newEdge p2 p0,
    circle := ⟨cx, cy, dx * dx + dy * dy⟩ }

/-- Triangulation state (`Delaunay`, delaunay.go:89). -/
structure Delaunay where
  width : ℤ
  height : ℤ
  triangles : List Triangle
deriving DecidableEq, Repr

/-- `Delaunay.clear` (delaunay.go:105): the two seed triangles covering the
rectangle. -/
def Delaunay.clear (d : Delaunay) : Delaunay :=
  let p0 := newNode 0 0
  let p1 := newNode d.width 0
  let p2 := newNode d.width d.height
  let p3 := newNode 0 d.height
  { d with triangles := [newTriangle p0 p1 p2, newTriangle p0 p2 p3] }

/-- `Delaunay.Init` (delaunay.go:95). -/
def Delaunay.Init (width height : ℤ) : Delaunay :=
  Delaunay.clear ⟨width, height, []⟩

/-- One step of the polygon scan of `Insert` (delaunay.go:149-161): look for
an edge of the polygon equal (as unordered pair) to `e`; remove the first
match, otherwise return `none`. -/
def removeFirstEdge (e : Edge) : List Edge → Option (List Edge)
  | [] => none
  | f :: rest =>
    if edgeIsEq e f then some rest
    else (removeFirstEdge e rest).map (f :: ·)

/-- Processing of one candidate edge by the `edgesLoop` of `Insert`:
a matching polygon edge is removed (interior edge), otherwise the edge is
appended. -/
def polyInsert (polygon : List Edge) (e : Edge) : List Edge :=
  match removeFirstEdge e polygon with
  | some polygon' => polygon'
  | none => polygon ++ [e]

/-- Partition step of `Insert` (delaunay.go:132-145): a triangle whose stored
circumcircle strictly contains the point contributes its three edges,
any other triangle is kept. -/
def badStep (p : Point) (acc : List Edge × List Triangle) (t : Triangle) :
    List Edge × List Triangle :=
  let dx := t.circle.x - p.x
  let dy := t.circle.y - p.y
  if dx * dx + dy * dy < t.circle.radius then
    (acc.1 ++ [t.e0, t.e1, t.e2], acc.2)
  else
    (acc.1, acc.2 ++ [t])

/-- The body of the outer loop of `Insert` (delaunay.go:124-166) for a single
point. -/
def insertPoint (d : Delaunay) (p : Point) : Delaunay :=
  let step := d.triangles.foldl (badStep p) ([], [])
  let polygon := step.1.foldl polyInsert []
  { d with triangles :=
      step.2 ++ polygon.map (fun e => newTriangle e.n0 e.n1 (newNode p.x p.y)) }

/-- `Delaunay.Insert` (delaunay.go:115). -/
def Delaunay.Insert (d : Delaunay) (points : List Point) : Delaunay :=
  points.foldl insertPoint d

/-- `Delaunay.GetTriangles` (delaunay.go:171). -/
def Delaunay.GetTriangles (d : Delaunay) : List Triangle := d.triangles

/-- Membership of a node among a triangle's three nodes. -/
def Triangle.hasNode (t : Triangle) (n : Node) : Prop :=
  n = t.n0 ∨ n = t.n1 ∨ n = t.n2

instance (t : Triangle) (n : Node) : Decidable (t.hasNode n) := by
  unfold Triangle.hasNode
  infer_instance

/-- The integer stored by `newTriangle` as a circumcircle centre coordinate:
`int(float64(M) * (1.0 / (2.0 * (float64(D) - float64(0)))))`. -/
def centerTrunc (M D : ℤ) : ℤ :=
  otruncD (omulD 53 (some (Dy.i2f 53 M))
    (Dy.divD 53 ⟨1, 0⟩ (Dy.mulD 53 ⟨2, 0⟩
      (Dy.subD 53 (Dy.i2f 53 D) (Dy.i2f 53 0)))))

/-- A byte image with origin `(0, 0)`: the `image.NRGBA` buffer of a `w × h`
rectangle with `Stride = 4 * w`, one natural number per stored byte. -/
structure Img where
  w : ℕ
  h : ℕ
  pix : List ℕ
deriving DecidableEq, Repr

/-- The exact `float32` value of the literal `0.299` (imop.go:22). -/
def c299 : Dy := ⟨10032775, -25⟩

/-- The exact `float32` value of the literal `0.587` (imop.go:22). -/
def c587 : Dy := ⟨4924113, -23⟩

/-- The exact `float32` value of the literal `0.114` (imop.go:22). -/
def c114 : Dy := ⟨15300821, -27⟩

/-- `color.NRGBA.RGBA()` (Go standard library): an 8-bit channel `c` is
widened to 16 bits (`c | c << 8 = c * 257`), multiplied by the alpha byte
and divided by `0xff`. -/
def premul (c a : ℕ) : ℕ := c * 257 * a / 255

/-- Byte `i` of an image buffer (`0` outside the buffer, as Go's `At`
returns the zero color outside the bounds). -/
def byteAt (img : Img) (i : ℕ) : ℕ := img.pix.getD i 0

/-- The `float32` luma `float32(r)*0.299 + float32(g)*0.587 + float32(b)*0.114`
(imop.go:22) on the 16-bit premultiplied channels, every operation rounded
to 24 significant bits. -/
def lumaF (r g b : ℕ) : Dy :=
  Dy.addD 24 (Dy.addD 24 (Dy.mulD 24 (Dy.i2f 24 (r : ℤ)) c299)
    (Dy.mulD 24 (Dy.i2f 24 (g : ℤ)) c587)) (Dy.mulD 24 (Dy.i2f 24 (b : ℤ)) c114)

/-- The gray byte `uint8(lum / 256)` computed by `Grayscale` (imop.go:17-23)
for a source pixel `(R, G, B, A)`: premultiplied channels from `RGBA()`,
the `if r == 0 { r = a }` alpha substitution (imop.go:19-21, with
`a = A * 257`), the `float32` luma, division by 256 and truncation. -/
def grayByte (R G B A : ℕ) : ℕ :=
  let r0 := premul R A
  let r := if r0 = 0 then A * 257 else r0
  (otruncD (Dy.divD 24 (lumaF r (premul G A) (premul B A)) ⟨1, 8⟩)).toNat

/-- The gray byte for the source pixel at `(x, y)`. -/
def grayAt (src : Img) (x y : ℕ) : ℕ :=
  grayByte (byteAt src (4 * (y * src.w + x))) (byteAt src (4 * (y * src.w + x) + 1))
    (byteAt src (4 * (y * src.w + x) + 2)) (byteAt src (4 * (y * src.w + x) + 3))

/-- Writing one NRGBA pixel `(v, v, v, 255)` at byte offset `off`. -/
def writePix (pix : List ℕ) (off v : ℕ) : List ℕ :=
  ((((pix.set off v).set (off + 1) v).set (off + 2) v).set (off + 3) 255)

/-- `dst.Set(x, y, color.Gray{v})` on an NRGBA image (imop.go:23-24):
`color.NRGBAModel` converts `Gray{v}` to `NRGBA{v, v, v, 255}`, written at
`PixOffset(x, y) = 4 * (y*w + x)`. -/
def setGray (w : ℕ) (pix : List ℕ) (x y v : ℕ) : List ℕ :=
  writePix pix (4 * (y * w + x)) v

/-- The inner loop of `Grayscale` (imop.go:16-25) for one column `x`. -/
def gsStep (src : Img) (acc : List ℕ) (x : ℕ) : List ℕ :=
  (List.range src.h).foldl (fun a y => setGray src.w a x y (grayAt src x y)) acc

/-- `Grayscale` (imop.go:12): a zero NRGBA buffer of the same bounds
(`image.NewNRGBA`), then the double loop over columns and rows writing the
gray pixel. -/
def Grayscale (src : Img) : Img :=
  ⟨src.w, src.h,
    (List.range src.w).foldl (gsStep src) (List.replicate (4 * src.w * src.h) 0)⟩

/-- Modelled from the spec's words: `luma = round(0.299·R + 0.587·G + 0.114·B)`
on the pixel's stored bytes, rounding half up. -/
def specLuma (R G B : ℕ) : ℕ := (2 * (299 * R + 587 * G + 114 * B) + 1000) / 2000

/-- The `seed` record of seed.go:10 (`div` is only used by `random()` and
carries no state). -/
structure SeedS where
  a : ℕ
  m : ℕ
  randomNum : ℕ
deriving DecidableEq, Repr

/-- The seed state built by `addNoise` (seed.go:20-25): multiplier 16807,
modulus `0x7fffffff`, initial `randomNum` 1. -/
def addNoiseSeed : SeedS := ⟨16807, 0x7fffffff, 1⟩

/-- `nextLongRand` (seed.go:48): Carta's multiplication scheme for the
Lehmer generator.  All operands are nonnegative, so the Go signed bit
operations coincide with the natural-number ones: `x & 0xffff = x % 2^16`,
`x >> 16 = x / 2^16`, `x & 0x7fff = x % 2^15`, `x << 16 = x * 2^16`,
`x >> 15 = x / 2^15`, and `x & 0x7fffffff = x % 2^31`. -/
def nextLongRand (s : SeedS) (seed : ℕ) : ℕ :=
  let lo := s.a * (seed % 65536)
  let hi := s.a * (seed / 65536)
  let lo1 := lo + (hi % 32768) * 65536
  let lo2 := if s.m < lo1 then lo1 % 2147483648 + 1 else lo1
  let lo3 := lo2 + hi / 32768
  let lo4 := if s.m < lo3 then lo3 % 2147483648 + 1 else lo3
  lo4

/-- The exact `float64` value of the literal `0.33333` (process.go:138). -/
def c33333 : Dy := ⟨3002369727582815, -53⟩

/-- The byte index the shader samples the fill colour from, common to the
raster path (process.go:138-141) and the SVG path (process.go:228-232,
whose extra `| 0` is the identity): `j = (int(cx) + int(cy)*width) * 4`
with `cx = float64(ΣX) * 0.33333` and `cy = float64(ΣY) * 0.33333`. -/
def sampleIndex (width : ℤ) (p0 p1 p2 : Node) : ℤ :=
  (Dy.truncD (Dy.mulD 53 (Dy.i2f 53 (p0.X + p1.X + p2.X)) c33333) +
    Dy.truncD (Dy.mulD 53 (Dy.i2f 53 (p0.Y + p1.Y + p2.Y)) c33333) * width) * 4

/-- Modelled from the spec's words: the byte index of the floor of the
exact centroid, `(⌊ΣX/3⌋ + ⌊ΣY/3⌋·width) * 4`. -/
def specSampleIndex (width : ℤ) (p0 p1 p2 : Node) : ℤ :=
  ((p0.X + p1.X + p2.X) / 3 + ((p0.Y + p1.Y + p2.Y) / 3) * width) * 4

/-- Fuel-driven integer square root by downward search: `isqrtF f n` is the
largest `k ≤ f` with `k * k ≤ n`. -/
def isqrtF : ℕ → ℕ → ℕ
  | 0, _ => 0
  | f + 1, n => if (f + 1) * (f + 1) ≤ n then f + 1 else isqrtF f n

/-- `int(math.Sqrt(float64(n)))` (imop.go:97) for the matrix lengths in use:
every matrix built by `setBlurMatrix`/`setEdgeMatrix` has a perfect-square
length below 2^52, where `math.Sqrt` is exact, so the conversion is `⌊√n⌋`. -/
def isqrt (n : ℕ) : ℕ := isqrtF n n

/-- Value equality of two dyadics (float `==`), by cross-shifting to a
common exponent. -/
def deqD (a b : Dy) : Bool :=
  if a.e ≤ b.e then a.m == b.m * 2 ^ (b.e - a.e).toNat
  else a.m * 2 ^ (a.e - b.e).toNat == b.m

/-- The in-place weight scaling of `convolutionFilter` (imop.go:101-106):
`divscalar = 1/divisor` in float64, and unless it compares equal to `1`
every weight is multiplied by it.  A zero divisor makes `divscalar = +Inf`
(`none`); the scaled weights `±Inf` or `NaN` are then all non-finite
(`none`). -/
def scaleMatrix (matrix : List Dy) (divisor : Dy) : List (Option Dy) :=
  match Dy.divD 53 ⟨1, 0⟩ divisor with
  | none => matrix.map (fun _ => none)
  | some d => if deqD d ⟨1, 0⟩ then matrix.map some
      else matrix.map (fun w => some (Dy.mulD 53 w d))

/-- The accumulator `r` for the output pixel `(x, y)` (imop.go:116-132): a
sum over the in-bounds taps of `int(float64(copy[sx+jstep]) * v)`, where
`v` is the scaled matrix weight; a non-finite weight (`none`) makes Go's
float-to-int conversion implementation-specific (modelled as 0, a branch
no theorem's value depends on). -/
def convAt (mat : List (Option Dy)) (cpy : List ℤ) (w h size dim : ℕ)
    (x y : ℕ) : ℤ :=
  (List.range (2 * dim + 1)).foldl (fun r (rowIdx : ℕ) =>
    let sy : ℤ := (y : ℤ) + rowIdx - dim
    if 0 ≤ sy ∧ sy < (h : ℤ) then
      (List.range (2 * dim + 1)).foldl (fun r2 (colIdx : ℕ) =>
        let sx : ℤ := (x : ℤ) + colIdx - dim
        let idx : ℕ := colIdx + rowIdx * size
        if 0 ≤ sx ∧ sx < (w : ℤ) then
          r2 + otruncD (omulD 53 (some (Dy.i2f 53 (cpy.getD (sx + sy * w).toNat 0)))
            (mat.getD idx none))
        else r2) r
    else r) 0

/-- The clamp of the accumulator to a byte (imop.go:134-140). -/
def clampB (r : ℤ) : ℕ := if r < 0 then 0 else if 255 < r then 255 else r.toNat

/-- One row of the write loop of `convolutionFilter` (imop.go:112-142):
byte `(x + y*w) << 2` of the accumulator list receives the clamped
convolution value of pixel `(x, y)`. -/
def convStep (mat : List (Option Dy)) (cpy : List ℤ) (w h size dim : ℕ)
    (acc : List ℕ) (y : ℕ) : List ℕ :=
  (List.range w).foldl (fun acc2 x =>
    acc2.set (4 * (x + y * w)) (clampB (convAt mat cpy w h size dim x y))) acc

/-- `convolutionFilter` (imop.go:91): scales the matrix by `1/divisor`,
snapshots channel 0 of every pixel (`copy`, imop.go:107-110), then writes
the clamped convolution of the snapshot into channel 0 of every pixel,
in place. -/
def convolutionFilter (matrix : List Dy) (img : Img) (divisor : Dy) : Img :=
  ⟨img.w, img.h,
    (List.range img.h).foldl
      (convStep (scaleMatrix matrix divisor)
        ((List.range (img.pix.length / 4)).map (fun i => (byteAt img (4 * i) : ℤ)))
        img.w img.h (isqrt matrix.length) (isqrt matrix.length / 2))
      img.pix⟩

/-- `setBlurMatrix` (imop.go:170): a `(2n+1)²` all-ones table. -/
def setBlurMatrix (size : ℕ) : List Dy :=
  List.replicate ((size * 2 + 1) * (size * 2 + 1)) ⟨1, 0⟩

/-- `setEdgeMatrix` (imop.go:185): a `(2n+1)²` table of ones with
`-length` at the centre. -/
def setEdgeMatrix (size : ℕ) : List Dy :=
  (List.range ((size * 2 + 1) * (size * 2 + 1))).map
    (fun i => if i = (size * 2 + 1) * (size * 2 + 1) / 2
      then Dy.i2f 53 (-(((size * 2 + 1) * (size * 2 + 1) : ℕ) : ℤ)) else ⟨1, 0⟩)

/-- `Point` of package triangle (part_006): `X, Y float64` storing exact
pixel indices; embedded as the indices. -/
structure PointF where
  X : ℕ
  Y : ℕ
deriving DecidableEq, Repr

/-- The exact `float64` value of the constant `pointRate = 0.875`
(part_006:11). -/
def pointRate : Dy := ⟨7, -3⟩

/-- The 3×3 thresholding scan of `GetEdgePoints` (part_006:26-50) for one
pixel: `sum` and `total` are Go `uint8`, so the byte sum wraps modulo 256
before the division. -/
def edgeScan (img : Img) (x y : ℕ) : ℕ :=
  let st := (List.range 3).foldl (fun (st : ℕ × ℕ) (rowIdx : ℕ) =>
    let sy : ℤ := (y : ℤ) + rowIdx - 1
    if 0 ≤ sy ∧ sy < (img.h : ℤ) then
      (List.range 3).foldl (fun (st2 : ℕ × ℕ) (colIdx : ℕ) =>
        let sx : ℤ := (x : ℤ) + colIdx - 1
        if 0 ≤ sx ∧ sx < (img.w : ℤ) then
          ((st2.1 + byteAt img (4 * (sx + sy * img.w).toNat)) % 256, st2.2 + 1)
        else st2) st
    else st) (0, 0)
  if 0 < st.2 then st.1 / st.2 else st.1

/-- The candidate list of `GetEdgePoints` (part_006:26-50): every pixel
whose 3×3 mean exceeds `uint8(threshold)`, in scan order. -/
def edgeCandidates (img : Img) (threshold : ℕ) : List PointF :=
  (List.range img.h).foldl (fun acc y =>
    (List.range img.w).foldl (fun acc2 x =>
      if threshold % 256 < edgeScan img x y then acc2 ++ [⟨x, y⟩] else acc2) acc) []

/-- `GetEdgePoints` (part_006:14): the candidates, then
`limit = int(float64(len) * pointRate)` capped at `maxPoints`, then
`limit` (and at most `len`) random draws from the candidate list.  The
draw `int(float64(ilen) * r.Float64())` is an arbitrary index below
`ilen`, supplied by the `rng` argument. -/
def getEdgePoints (img : Img) (threshold maxPoints : ℕ) (rng : ℕ → ℕ) :
    List PointF :=
  let points := edgeCandidates img threshold
  let ilen := points.length
  let limit0 : ℤ := Dy.truncD (Dy.mulD 53 (Dy.i2f 53 (ilen : ℤ)) pointRate)
  let limit : ℤ := if (maxPoints : ℤ) < limit0 then (maxPoints : ℤ) else limit0
  (List.range (min limit.toNat ilen)).map (fun i => points.getD (rng i % ilen) ⟨0, 0⟩)

namespace Dy

theorem two_zpow_pos (e : ℤ) : (0 : ℚ) < 2 ^ e := zpow_pos (by norm_num) e

theorem toQ_mk (m e : ℤ) : toQ ⟨m, e⟩ = (m : ℚ) * 2 ^ e := rfl

theorem lg2F_bounds : ∀ f n : ℕ, 0 < n → n ≤ f →
    2 ^ lg2F f n ≤ n ∧ n < 2 ^ (lg2F f n + 1) := by
  intro f
  induction f with
  | zero => intro n h1 h2; omega
  | succ f ih =>
    intro n h1 h2
    unfold lg2F
    by_cases hn : n ≤ 1
    · simp only [if_pos hn]
      interval_cases n
      · simp
    · simp only [if_neg hn]
      obtain ⟨ihl, ihr⟩ := ih (n / 2) (by omega) (by omega)
      rw [pow_succ, pow_succ]
      rw [pow_succ] at ihr
      constructor
      · have : 2 ^ lg2F f (n / 2) * 2 ≤ n / 2 * 2 := by omega
        omega
      · have : n / 2 + 1 ≤ 2 ^ lg2F f (n / 2) * 2 := by omega
        have h4 : (n / 2 + 1) * 2 ≤ 2 ^ lg2F f (n / 2) * 2 * 2 :=
          Nat.mul_le_mul_right 2 this
        omega

theorem natLg_bounds (n : ℕ) (h : 0 < n) :
    2 ^ natLg n ≤ n ∧ n < 2 ^ (natLg n + 1) :=
  lg2F_bounds n n h le_rfl

theorem bitlen_bounds (n : ℕ) (h : 0 < n) :
    2 ^ (bitlen n - 1) ≤ n ∧ n < 2 ^ bitlen n := by
  have := natLg_bounds n h
  unfold bitlen
  rw [if_neg (by omega)]
  simpa using this

theorem rshRNE_err (m s : ℕ) (hs : 1 ≤ s) :
    |(rshRNE m s : ℤ) * 2 ^ s - m| ≤ 2 ^ (s - 1) := by
  unfold rshRNE
  have hdmZ : ((m / 2 ^ s : ℕ) : ℤ) * 2 ^ s + ((m % 2 ^ s : ℕ) : ℤ) = (m : ℤ) := by
    exact_mod_cast Nat.div_add_mod' m (2 ^ s)
  have hsZ : (2 : ℤ) ^ s = 2 * 2 ^ (s - 1) := by
    rw [← pow_succ']
    congr 1
    omega
  have hmodZ : ((m % 2 ^ s : ℕ) : ℤ) < 2 ^ s := by
    exact_mod_cast Nat.mod_lt _ (Nat.pos_pow_of_pos s (by norm_num))
  have hmod0 : (0 : ℤ) ≤ ((m % 2 ^ s : ℕ) : ℤ) := by positivity
  set A : ℤ := ((m / 2 ^ s : ℕ) : ℤ) with hA
  set R : ℤ := ((m % 2 ^ s : ℕ) : ℤ) with hR
  rcases Nat.lt_trichotomy (2 * (m % 2 ^ s)) (2 ^ s) with h | h | h
  · rw [if_pos h]
    have hZ : 2 * R < 2 ^ s := by rw [hR]; exact_mod_cast h
    rw [← hdmZ, show A * 2 ^ s - (A * 2 ^ s + R) = -R by ring, abs_neg,
      abs_of_nonneg hmod0]
    linarith
  · rw [if_neg (by omega), if_neg (by omega)]
    have hZ : 2 * R = 2 ^ s := by rw [hR]; exact_mod_cast h
    have hval : R = 2 ^ (s - 1) := by linarith
    have hcast : ((m / 2 ^ s + 1 : ℕ) : ℤ) = A + 1 := by rw [hA]; push_cast; ring
    by_cases hq : (m / 2 ^ s) % 2 = 0
    · rw [if_pos hq, ← hdmZ, show A * 2 ^ s - (A * 2 ^ s + R) = -R by ring, abs_neg,
        abs_of_nonneg hmod0]
      linarith
    · rw [if_neg hq, hcast, ← hdmZ,
        show (A + 1) * 2 ^ s - (A * 2 ^ s + R) = 2 ^ s - R by ring,
        abs_of_nonneg (by linarith)]
      linarith
  · rw [if_neg (by omega), if_pos h]
    have hZ : 2 ^ s < 2 * R := by rw [hR]; exact_mod_cast h
    have hcast : ((m / 2 ^ s + 1 : ℕ) : ℤ) = A + 1 := by rw [hA]; push_cast; ring
    rw [hcast, ← hdmZ,
      show (A + 1) * 2 ^ s - (A * 2 ^ s + R) = 2 ^ s - R by ring,
      abs_of_nonneg (by linarith)]
    linarith

theorem norm_err (p : ℕ) (x : Dy) :
    |toQ (norm p x) - toQ x| ≤ |toQ x| / 2 ^ p := by
  unfold norm
  by_cases hb : bitlen x.m.natAbs ≤ p
  · rw [if_pos hb]
    simp only [sub_self, abs_zero]
    positivity
  · rw [if_neg hb]
    set n := x.m.natAbs with hn
    have hn0 : 0 < n := by
      by_contra h0
      have : n = 0 := by omega
      rw [this] at hb
      simp [bitlen] at hb
    set s := bitlen n - p with hsdef
    have hps : p + s = bitlen n := by omega
    have hs1 : 1 ≤ s := by omega
    have hblQ : 2 ^ (bitlen n - 1) ≤ n := (bitlen_bounds n hn0).1
    set q := rshRNE n s with hq
    have hkeyQ : |(q : ℚ) * 2 ^ s - (n : ℚ)| ≤ 2 ^ (s - 1) := by
      exact_mod_cast rshRNE_err n s hs1
    have hEpos : (0 : ℚ) < 2 ^ x.e := two_zpow_pos x.e
    have hnQ : (2 : ℚ) ^ (p + (s - 1)) ≤ (n : ℚ) := by
      exact_mod_cast Nat.le_trans (Nat.pow_le_pow_right (by norm_num) (by omega)) hblQ
    have hcast : ((n : ℕ) : ℚ) = |(x.m : ℚ)| := by
      rw [hn, Int.cast_natAbs, Int.cast_abs]
    have habs : |toQ ⟨if x.m < 0 then -(q : ℤ) else (q : ℤ), x.e + (s : ℤ)⟩ - toQ x| =
        |(q : ℚ) * 2 ^ s - (n : ℚ)| * 2 ^ x.e := by
      have hzp : (2 : ℚ) ^ (x.e + (s : ℤ)) = 2 ^ x.e * 2 ^ s := by
        rw [zpow_add₀ (by norm_num : (2 : ℚ) ≠ 0), zpow_natCast]
      rcases lt_or_le x.m 0 with hneg | hpos
      · rw [if_pos hneg]
        have hmQ : (x.m : ℚ) = -(n : ℚ) := by
          have : |(x.m : ℚ)| = -(x.m : ℚ) := abs_of_neg (by exact_mod_cast hneg)
          push_cast at hcast ⊢
          linarith
        rw [toQ_mk, toQ_mk, hmQ, hzp]
        rw [show ((-(q : ℤ) : ℤ) : ℚ) * (2 ^ x.e * 2 ^ s) - -(n : ℚ) * 2 ^ x.e =
          -(((q : ℚ) * 2 ^ s - (n : ℚ)) * 2 ^ x.e) by push_cast; ring]
        rw [abs_neg, abs_mul, abs_of_pos hEpos]
      · rw [if_neg (not_lt.mpr hpos)]
        have hmQ : (x.m : ℚ) = (n : ℚ) := by
          have : |(x.m : ℚ)| = (x.m : ℚ) := abs_of_nonneg (by exact_mod_cast hpos)
          push_cast at hcast ⊢
          linarith
        rw [toQ_mk, toQ_mk, hmQ, hzp]
        rw [show ((q : ℤ) : ℚ) * (2 ^ x.e * 2 ^ s) - (n : ℚ) * 2 ^ x.e =
          ((q : ℚ) * 2 ^ s - (n : ℚ)) * 2 ^ x.e by push_cast; ring]
        rw [abs_mul, abs_of_pos hEpos]
    have habsx : |toQ x| = (n : ℚ) * 2 ^ x.e := by
      rw [toQ_mk, abs_mul, abs_of_pos hEpos, hcast]
    rw [habs, habsx, le_div_iff₀ (by positivity : (0 : ℚ) < 2 ^ p)]
    calc |(q : ℚ) * 2 ^ s - (n : ℚ)| * 2 ^ x.e * 2 ^ p
        ≤ 2 ^ (s - 1) * 2 ^ x.e * 2 ^ p := by
          have h1 := mul_le_mul_of_nonneg_right hkeyQ (le_of_lt hEpos)
          exact mul_le_mul_of_nonneg_right h1 (by positivity)
      _ = 2 ^ (p + (s - 1)) * 2 ^ x.e := by rw [pow_add]; ring
      _ ≤ (n : ℚ) * 2 ^ x.e := mul_le_mul_of_nonneg_right hnQ (le_of_lt hEpos)

theorem toQ_pre_mul (a b : Dy) : toQ ⟨a.m * b.m, a.e + b.e⟩ = toQ a * toQ b := by
  rw [toQ_mk, toQ_mk, toQ_mk, zpow_add₀ (by norm_num : (2 : ℚ) ≠ 0)]
  push_cast
  ring

theorem mulD_err (p : ℕ) (a b : Dy) :
    |toQ (mulD p a b) - toQ a * toQ b| ≤ |toQ a * toQ b| / 2 ^ p := by
  have h := norm_err p ⟨a.m * b.m, a.e + b.e⟩
  rw [toQ_pre_mul] at h
  exact h

theorem toQ_pre_add (a b : Dy) (h : b.e ≤ a.e) :
    toQ ⟨a.m * 2 ^ (a.e - b.e).toNat + b.m, b.e⟩ = toQ a + toQ b := by
  rw [toQ_mk, toQ_mk, toQ_mk]
  have hz : ((2 : ℚ) ^ ((a.e - b.e).toNat)) * 2 ^ b.e = 2 ^ a.e := by
    rw [← zpow_natCast (2 : ℚ) (a.e - b.e).toNat,
      ← zpow_add₀ (by norm_num : (2 : ℚ) ≠ 0)]
    congr 1
    omega
  push_cast
  rw [add_mul, mul_assoc, hz]

theorem addD_err (p : ℕ) (a b : Dy) :
    |toQ (addD p a b) - (toQ a + toQ b)| ≤ |toQ a + toQ b| / 2 ^ p := by
  unfold addD
  split_ifs with h
  · have h2 := norm_err p ⟨a.m * 2 ^ (a.e - b.e).toNat + b.m, b.e⟩
    rwa [toQ_pre_add a b h] at h2
  · have h2 := norm_err p ⟨b.m * 2 ^ (b.e - a.e).toNat + a.m, a.e⟩
    rw [toQ_pre_add b a (by omega)] at h2
    rwa [add_comm (toQ b)] at h2

theorem toQ_negD (a : Dy) : toQ (negD a) = -toQ a := by
  unfold negD
  rw [toQ_mk, toQ_mk]
  push_cast
  ring

theorem subD_err (p : ℕ) (a b : Dy) :
    |toQ (subD p a b) - (toQ a - toQ b)| ≤ |toQ a - toQ b| / 2 ^ p := by
  unfold subD
  have h := addD_err p a (negD b)
  rw [toQ_negD] at h
  simpa [sub_eq_add_neg] using h

theorem i2f_err (p : ℕ) (n : ℤ) : |toQ (i2f p n) - n| ≤ |(n : ℚ)| / 2 ^ p := by
  have h := norm_err p ⟨n, 0⟩
  simpa [toQ_mk] using h

theorem norm_m_nonneg (p : ℕ) (x : Dy) (h : 0 ≤ x.m) : 0 ≤ (norm p x).m := by
  unfold norm
  split_ifs with h1 h2
  · exact h
  · omega
  · show (0 : ℤ) ≤ ((rshRNE x.m.natAbs (bitlen x.m.natAbs - p) : ℕ) : ℤ)
    positivity

theorem toQ_nonneg (x : Dy) (h : 0 ≤ x.m) : 0 ≤ toQ x := by
  rw [toQ_mk]
  have : (0 : ℚ) ≤ (x.m : ℚ) := by exact_mod_cast h
  positivity

theorem truncD_eq_floor (x : Dy) (h : 0 ≤ x.m) : truncD x = ⌊toQ x⌋ := by
  unfold truncD
  split_ifs with he hm
  · rw [toQ_mk]
    have hcast : ((x.m * 2 ^ x.e.toNat : ℤ) : ℚ) = (x.m : ℚ) * 2 ^ x.e := by
      push_cast
      rw [← zpow_natCast (2 : ℚ) x.e.toNat, Int.toNat_of_nonneg he]
    rw [← hcast, Int.floor_intCast]
  · omega
  · have hmn : (x.m.natAbs : ℤ) = x.m := Int.natAbs_of_nonneg h
    set k := (-x.e).toNat with hk
    set N := x.m.natAbs with hN
    have hq := Nat.div_add_mod N (2 ^ k)
    have hrlt : N % 2 ^ k < 2 ^ k := Nat.mod_lt _ (Nat.pos_pow_of_pos k (by norm_num))
    have hNQ : ((N : ℕ) : ℚ) = (x.m : ℚ) := by exact_mod_cast hmn
    have hval : toQ x = (N : ℚ) / 2 ^ k := by
      rw [toQ_mk]
      have hx : x.e = -(k : ℤ) := by omega
      rw [hx, zpow_neg, zpow_natCast, ← hNQ]
      ring
    rw [hval, eq_comm, Int.floor_eq_iff]
    constructor
    · rw [le_div_iff₀ (by positivity : (0 : ℚ) < (2 : ℚ) ^ k)]
      have hle' : N / 2 ^ k * 2 ^ k ≤ N := Nat.div_mul_le_self N (2 ^ k)
      exact_mod_cast hle'
    · rw [div_lt_iff₀ (by positivity : (0 : ℚ) < (2 : ℚ) ^ k)]
      have hlt' : N < (N / 2 ^ k + 1) * 2 ^ k := by
        calc N = 2 ^ k * (N / 2 ^ k) + N % 2 ^ k := hq.symm
          _ < 2 ^ k * (N / 2 ^ k) + 2 ^ k := by omega
          _ = (N / 2 ^ k + 1) * 2 ^ k := by ring
      exact_mod_cast hlt'

theorem bltD_iff (a b : Dy) : bltD a b = true ↔ toQ a < toQ b := by
  unfold bltD
  split_ifs with h
  · rw [decide_eq_true_eq]
    have hz : ((2 : ℚ) ^ ((b.e - a.e).toNat)) * 2 ^ a.e = 2 ^ b.e := by
      rw [← zpow_natCast (2 : ℚ) (b.e - a.e).toNat,
        ← zpow_add₀ (by norm_num : (2 : ℚ) ≠ 0)]
      congr 1
      omega
    rw [toQ_mk, toQ_mk]
    constructor
    · intro hlt
      have hltQ : (a.m : ℚ) < (b.m : ℚ) * 2 ^ ((b.e - a.e).toNat) := by exact_mod_cast hlt
      have := mul_lt_mul_of_pos_right hltQ (two_zpow_pos a.e)
      rwa [mul_assoc, hz] at this
    · intro hlt
      rw [← hz, ← mul_assoc] at hlt
      have h2 := (mul_lt_mul_right (two_zpow_pos a.e)).mp hlt
      exact_mod_cast h2
  · rw [decide_eq_true_eq]
    have hz : ((2 : ℚ) ^ ((a.e - b.e).toNat)) * 2 ^ b.e = 2 ^ a.e := by
      rw [← zpow_natCast (2 : ℚ) (a.e - b.e).toNat,
        ← zpow_add₀ (by norm_num : (2 : ℚ) ≠ 0)]
      congr 1
      omega
    rw [toQ_mk, toQ_mk]
    constructor
    · intro hlt
      have hltQ : (a.m : ℚ) * 2 ^ ((a.e - b.e).toNat) < (b.m : ℚ) := by exact_mod_cast hlt
      have := mul_lt_mul_of_pos_right hltQ (two_zpow_pos b.e)
      rwa [mul_assoc, hz] at this
    · intro hlt
      rw [← hz, ← mul_assoc] at hlt
      have h2 := (mul_lt_mul_right (two_zpow_pos b.e)).mp hlt
      exact_mod_cast h2

theorem bitlen_one_le (n : ℕ) (h : 0 < n) : 1 ≤ bitlen n := by
  by_contra h0
  have hbb := (bitlen_bounds n h).2
  have : bitlen n = 0 := by omega
  rw [this] at hbb
  omega

theorem divD_err (p : ℕ) (a b : Dy) (hb : b.m ≠ 0) :
    ∃ r, divD p a b = some r ∧ |toQ r - toQ a / toQ b| ≤ |toQ a / toQ b| / 2 ^ p := by
  by_cases ha : a.m = 0
  · refine ⟨⟨0, 0⟩, ?_, ?_⟩
    · unfold divD
      rw [if_neg hb, if_pos ha]
    · have hA0 : toQ a = 0 := by
        rw [toQ_mk, ha]
        push_cast
        ring
      have h0 : toQ (⟨0, 0⟩ : Dy) = 0 := by
        rw [toQ_mk]
        push_cast
        ring
      rw [hA0, zero_div, h0]
      simp
  · set α := a.m.natAbs with hα
    set β := b.m.natAbs with hβ
    have hα0 : 0 < α := Int.natAbs_pos.mpr ha
    have hβ0 : 0 < β := Int.natAbs_pos.mpr hb
    set na := bitlen α with hna
    set nb := bitlen β with hnb
    have hna1 : 1 ≤ na := bitlen_one_le α hα0
    have hnb1 : 1 ≤ nb := bitlen_one_le β hβ0
    set k : ℤ := (nb : ℤ) - na + p + 1 with hk
    set A := α * 2 ^ k.toNat with hA
    set B := β * 2 ^ (-k).toNat with hB
    have hA0 : 0 < A := by positivity
    have hB0 : 0 < B := by positivity
    set Q := A / B with hQ
    set R := A % B with hR
    set s := bitlen Q - p with hs
    set q0 := Q / 2 ^ s with hq0
    set r0 := Q % 2 ^ s with hr0
    set T := r0 * B + R with hT
    set Hf := 2 ^ (s - 1) * B with hHf
    set q' := (if T < Hf then q0 else if Hf < T then q0 + 1
      else if q0 % 2 = 0 then q0 else q0 + 1) with hq'
    set sgn := (decide (a.m < 0)).xor (decide (b.m < 0)) with hsgn
    refine ⟨⟨if sgn then -(q' : ℤ) else (q' : ℤ), a.e - b.e - k + s⟩, ?_, ?_⟩
    · unfold divD
      rw [if_neg hb, if_neg ha]
    · have hBQ : (0 : ℚ) < (B : ℚ) := by exact_mod_cast hB0
      have hβQ : (0 : ℚ) < (β : ℚ) := by exact_mod_cast hβ0
      have hQR : B * Q + R = A := Nat.div_add_mod A B
      have hRB : R < B := Nat.mod_lt _ hB0
      set f : ℚ := (R : ℚ) / B with hf
      have hf0 : 0 ≤ f := by positivity
      have hf1 : f < 1 := by
        rw [hf, div_lt_one hBQ]
        exact_mod_cast hRB
      have hABf : (A : ℚ) / B = (Q : ℚ) + f := by
        have hAq : (A : ℚ) = (B : ℚ) * Q + R := by
          exact_mod_cast hQR.symm
        rw [hf, hAq]
        field_simp
        ring
      have hABQ : (A : ℚ) / B = (α : ℚ) / β * 2 ^ k := by
        rw [hA, hB]
        push_cast
        rw [mul_div_mul_comm]
        congr 1
        rw [← zpow_natCast (2 : ℚ) k.toNat, ← zpow_natCast (2 : ℚ) (-k).toNat,
          ← zpow_sub₀ (by norm_num : (2 : ℚ) ≠ 0)]
        congr 1
        omega
      have hαlow : (2 : ℚ) ^ ((na : ℤ) - 1) ≤ (α : ℚ) := by
        have h1 := (bitlen_bounds α hα0).1
        have : ((2 : ℕ) ^ (na - 1) : ℚ) ≤ (α : ℚ) := by exact_mod_cast h1
        rw [show ((na : ℤ) - 1) = ((na - 1 : ℕ) : ℤ) by omega, zpow_natCast]
        exact_mod_cast this
      have hαup : (α : ℚ) < (2 : ℚ) ^ (na : ℤ) := by
        have h1 := (bitlen_bounds α hα0).2
        rw [zpow_natCast]
        exact_mod_cast h1
      have hβlow : (2 : ℚ) ^ ((nb : ℤ) - 1) ≤ (β : ℚ) := by
        have h1 := (bitlen_bounds β hβ0).1
        rw [show ((nb : ℤ) - 1) = ((nb - 1 : ℕ) : ℤ) by omega, zpow_natCast]
        exact_mod_cast h1
      have hβup : (β : ℚ) < (2 : ℚ) ^ (nb : ℤ) := by
        have h1 := (bitlen_bounds β hβ0).2
        rw [zpow_natCast]
        exact_mod_cast h1
      have hvlow : (2 : ℚ) ^ ((p : ℤ)) < (A : ℚ) / B := by
        rw [hABQ]
        have h1 : (2 : ℚ) ^ ((na : ℤ) - 1) / 2 ^ ((nb : ℤ)) < (α : ℚ) / β := by
          calc (2 : ℚ) ^ ((na : ℤ) - 1) / 2 ^ ((nb : ℤ))
              < (2 : ℚ) ^ ((na : ℤ) - 1) / β := by
                apply div_lt_div_of_pos_left (two_zpow_pos _) hβQ hβup
            _ ≤ (α : ℚ) / β := (div_le_div_iff_of_pos_right hβQ).mpr hαlow
        have h2 := mul_lt_mul_of_pos_right h1 (two_zpow_pos k)
        calc (2 : ℚ) ^ ((p : ℤ))
            = 2 ^ ((na : ℤ) - 1) / 2 ^ ((nb : ℤ)) * 2 ^ k := by
              rw [← zpow_sub₀ (by norm_num : (2 : ℚ) ≠ 0),
                ← zpow_add₀ (by norm_num : (2 : ℚ) ≠ 0)]
              congr 1
              omega
          _ < (α : ℚ) / β * 2 ^ k := h2
      have hvup : (A : ℚ) / B < (2 : ℚ) ^ ((p : ℤ) + 2) := by
        rw [hABQ]
        have h1 : (α : ℚ) / β < (2 : ℚ) ^ ((na : ℤ)) / 2 ^ ((nb : ℤ) - 1) := by
          calc (α : ℚ) / β ≤ (α : ℚ) / 2 ^ ((nb : ℤ) - 1) := by
                apply div_le_div_of_nonneg_left (by positivity) (two_zpow_pos _) hβlow
            _ < (2 : ℚ) ^ ((na : ℤ)) / 2 ^ ((nb : ℤ) - 1) := by
                apply div_lt_div_of_pos_right hαup (two_zpow_pos _)
        have h2 := mul_lt_mul_of_pos_right h1 (two_zpow_pos k)
        calc (α : ℚ) / β * 2 ^ k
            < (2 : ℚ) ^ ((na : ℤ)) / 2 ^ ((nb : ℤ) - 1) * 2 ^ k := h2
          _ = (2 : ℚ) ^ ((p : ℤ) + 2) := by
              rw [← zpow_sub₀ (by norm_num : (2 : ℚ) ≠ 0),
                ← zpow_add₀ (by norm_num : (2 : ℚ) ≠ 0)]
              congr 1
              omega
      have hQlow : 2 ^ p ≤ Q := by
        rw [hQ, Nat.le_div_iff_mul_le hB0]
        have hq2 : ((2 ^ p * B : ℕ) : ℚ) < (A : ℚ) := by
          push_cast
          calc ((2 : ℚ) ^ (p : ℕ)) * B = ((2 : ℚ) ^ ((p : ℕ) : ℤ)) * B := by
                rw [zpow_natCast]
            _ < (A : ℚ) / B * B := mul_lt_mul_of_pos_right hvlow hBQ
            _ = (A : ℚ) := div_mul_cancel₀ _ (ne_of_gt hBQ)
        have hlt : 2 ^ p * B < A := by exact_mod_cast hq2
        omega
      have hQup : Q < 2 ^ (p + 2) := by
        have hcastle : ((Q : ℕ) : ℚ) ≤ (A : ℚ) / B := by
          rw [hQ]
          exact Nat.cast_div_le
        have hlt : ((Q : ℕ) : ℚ) < ((2 : ℚ) ^ (p + 2 : ℕ)) := by
          calc ((Q : ℕ) : ℚ) ≤ (A : ℚ) / B := hcastle
            _ < (2 : ℚ) ^ ((p : ℤ) + 2) := hvup
            _ = (2 : ℚ) ^ (p + 2 : ℕ) := by
                rw [show ((p : ℤ) + 2) = ((p + 2 : ℕ) : ℤ) by omega, zpow_natCast]
        exact_mod_cast hlt
      have hQ0 : 0 < Q := lt_of_lt_of_le (Nat.pos_pow_of_pos p (by norm_num)) hQlow
      have hblQ : 2 ^ (bitlen Q - 1) ≤ Q ∧ Q < 2 ^ bitlen Q := bitlen_bounds Q hQ0
      have hblbounds : p + 1 ≤ bitlen Q ∧ bitlen Q ≤ p + 2 := by
        constructor
        · by_contra h0
          have h1 : bitlen Q ≤ p := by omega
          have : (2 : ℕ) ^ bitlen Q ≤ 2 ^ p := Nat.pow_le_pow_right (by norm_num) h1
          omega
        · by_contra h0
          have h1 : p + 2 ≤ bitlen Q - 1 := by omega
          have : (2 : ℕ) ^ (p + 2) ≤ 2 ^ (bitlen Q - 1) := Nat.pow_le_pow_right (by norm_num) h1
          omega
      have hs1 : 1 ≤ s := by omega
      have hps : p + s = bitlen Q := by omega
      have hQs : 2 ^ (p + s - 1) ≤ Q ∧ Q < 2 ^ (p + s) := by
        rw [hps]
        exact hblQ
      have hq0m : q0 * 2 ^ s + r0 = Q := Nat.div_add_mod' Q (2 ^ s)
      have hr0lt : r0 < 2 ^ s := Nat.mod_lt _ (Nat.pos_pow_of_pos s (by norm_num))
      have hsplit : (2 : ℚ) ^ s = 2 * 2 ^ (s - 1) := by
        rw [← pow_succ']
        congr 1
        omega
      have hTQ : (T : ℚ) = ((r0 : ℚ) + f) * B := by
        rw [hT, hf]
        push_cast
        rw [add_mul, div_mul_cancel₀ _ (ne_of_gt hBQ)]
      have hHfQ : (Hf : ℚ) = (2 : ℚ) ^ (s - 1) * B := by
        rw [hHf]
        push_cast
        ring
      have hrnd : |(q' : ℚ) * 2 ^ s - ((q0 : ℚ) * 2 ^ s + r0 + f)| ≤ 2 ^ (s - 1) := by
        rw [hq']
        rcases Nat.lt_trichotomy T Hf with hc | hc | hc
        · rw [if_pos hc]
          have hcQ : ((r0 : ℚ) + f) * B < (2 : ℚ) ^ (s - 1) * B := by
            rw [← hTQ, ← hHfQ]
            exact_mod_cast hc
          have hlt : (r0 : ℚ) + f < 2 ^ (s - 1) := (mul_lt_mul_right hBQ).mp hcQ
          rw [show (q0 : ℚ) * 2 ^ s - ((q0 : ℚ) * 2 ^ s + r0 + f) = -((r0 : ℚ) + f) by ring,
            abs_neg, abs_of_nonneg (by positivity)]
          linarith
        · rw [if_neg (by omega), if_neg (by omega)]
          have hcQ : ((r0 : ℚ) + f) * B = (2 : ℚ) ^ (s - 1) * B := by
            rw [← hTQ, ← hHfQ]
            exact_mod_cast hc
          have heq : (r0 : ℚ) + f = 2 ^ (s - 1) := (mul_right_cancel₀ (ne_of_gt hBQ)) hcQ
          by_cases hpar : q0 % 2 = 0
          · rw [if_pos hpar]
            rw [show (q0 : ℚ) * 2 ^ s - ((q0 : ℚ) * 2 ^ s + r0 + f) = -((r0 : ℚ) + f) by ring,
              abs_neg, abs_of_nonneg (by positivity), heq]
          · rw [if_neg hpar]
            push_cast
            rw [show ((q0 : ℚ) + 1) * 2 ^ s - ((q0 : ℚ) * 2 ^ s + r0 + f) =
              2 ^ s - ((r0 : ℚ) + f) by ring, heq, hsplit,
              show (2 : ℚ) * 2 ^ (s - 1) - 2 ^ (s - 1) = 2 ^ (s - 1) by ring,
              abs_of_nonneg (by positivity)]
        · rw [if_neg (by omega), if_pos hc]
          have hcQ : (2 : ℚ) ^ (s - 1) * B < ((r0 : ℚ) + f) * B := by
            rw [← hTQ, ← hHfQ]
            exact_mod_cast hc
          have hgt : (2 : ℚ) ^ (s - 1) < (r0 : ℚ) + f := (mul_lt_mul_right hBQ).mp hcQ
          have hup : (r0 : ℚ) + f < 2 ^ s := by
            have : (r0 : ℚ) ≤ 2 ^ s - 1 := by
              have : (r0 : ℚ) ≤ ((2 ^ s - 1 : ℕ) : ℚ) := by exact_mod_cast Nat.le_sub_one_of_lt hr0lt
              calc (r0 : ℚ) ≤ ((2 ^ s - 1 : ℕ) : ℚ) := this
                _ = 2 ^ s - 1 := by
                    push_cast [Nat.cast_sub (Nat.one_le_two_pow)]
                    ring
            linarith
          push_cast
          rw [show ((q0 : ℚ) + 1) * 2 ^ s - ((q0 : ℚ) * 2 ^ s + r0 + f) =
            2 ^ s - ((r0 : ℚ) + f) by ring, abs_of_nonneg (by linarith)]
          rw [hsplit] at hup ⊢
          linarith
      set σQ : ℚ := if sgn then -1 else 1 with hσ
      have hσabs : |σQ| = 1 := by
        rw [hσ]
        rcases Bool.dichotomy sgn with hbo | hbo <;> simp [hbo]
      set E : ℤ := a.e - b.e - k with hE
      have hresv : toQ ⟨if sgn then -(q' : ℤ) else (q' : ℤ), a.e - b.e - k + s⟩ =
          σQ * (q' : ℚ) * 2 ^ (E + s) := by
        rw [toQ_mk, hσ, hE]
        rcases Bool.dichotomy sgn with hbo | hbo <;> rw [hbo] <;>
          simp only [Bool.false_eq_true, if_false, if_true] <;> push_cast <;> ring
      have hsignm : ∀ z : ℤ, z ≠ 0 →
          (z : ℚ) = (if z < 0 then (-1 : ℚ) else 1) * z.natAbs := by
        intro z hz
        rcases lt_or_le z 0 with hzn | hzp
        · rw [if_pos hzn]
          rw [Int.cast_natAbs, Int.cast_abs, abs_of_neg (by exact_mod_cast hzn)]
          ring
        · rw [if_neg (not_lt.mpr hzp)]
          rw [Int.cast_natAbs, Int.cast_abs, abs_of_nonneg (by exact_mod_cast hzp)]
          ring
      have htgtv : toQ a / toQ b = σQ * ((Q : ℚ) + f) * 2 ^ E := by
        rw [toQ_mk, toQ_mk, hsignm a.m ha, hsignm b.m hb, ← hα, ← hβ]
        have hαβ : (α : ℚ) / β = ((Q : ℚ) + f) * 2 ^ (-k) := by
          rw [← hABf, hABQ]
          rw [mul_assoc, ← zpow_add₀ (by norm_num : (2 : ℚ) ≠ 0)]
          rw [show k + -k = 0 by ring, zpow_zero, mul_one]
        have hexp : (2 : ℚ) ^ a.e / 2 ^ b.e = 2 ^ (a.e - b.e) := by
          rw [← zpow_sub₀ (by norm_num : (2 : ℚ) ≠ 0)]
        have hσval : (if a.m < 0 then (-1 : ℚ) else 1) / (if b.m < 0 then (-1 : ℚ) else 1) = σQ := by
          rw [hσ, hsgn]
          rcases lt_or_le a.m 0 with h1 | h1 <;> rcases lt_or_le b.m 0 with h2 | h2
          · rw [if_pos h1, if_pos h2]
            simp [h1, h2]
          · rw [if_pos h1, if_neg (not_lt.mpr h2)]
            simp [h1, not_lt.mpr h2]
          · rw [if_neg (not_lt.mpr h1), if_pos h2]
            simp [not_lt.mpr h1, h2]
          · rw [if_neg (not_lt.mpr h1), if_neg (not_lt.mpr h2)]
            simp [not_lt.mpr h1, not_lt.mpr h2]
        calc (if a.m < 0 then (-1 : ℚ) else 1) * α * 2 ^ a.e /
              ((if b.m < 0 then (-1 : ℚ) else 1) * β * 2 ^ b.e)
            = ((if a.m < 0 then (-1 : ℚ) else 1) / (if b.m < 0 then (-1 : ℚ) else 1)) *
              ((α : ℚ) / β) * ((2 : ℚ) ^ a.e / 2 ^ b.e) := by
              field_simp
          _ = σQ * (((Q : ℚ) + f) * 2 ^ (-k)) * 2 ^ (a.e - b.e) := by
              rw [hσval, hαβ, hexp]
          _ = σQ * ((Q : ℚ) + f) * 2 ^ E := by
              rw [hE, mul_assoc, mul_assoc, ← zpow_add₀ (by norm_num : (2 : ℚ) ≠ 0),
                show -k + (a.e - b.e) = a.e - b.e - k by ring]
              ring
      have hEpos : (0 : ℚ) < 2 ^ E := two_zpow_pos E
      have hQf : (q0 : ℚ) * 2 ^ s + r0 = (Q : ℚ) := by exact_mod_cast hq0m
      have hdiff : |toQ ⟨if sgn then -(q' : ℤ) else (q' : ℤ), a.e - b.e - k + s⟩ -
          toQ a / toQ b| = |(q' : ℚ) * 2 ^ s - ((Q : ℚ) + f)| * 2 ^ E := by
        rw [hresv, htgtv]
        rw [show σQ * (q' : ℚ) * 2 ^ (E + s) - σQ * ((Q : ℚ) + f) * 2 ^ E =
          σQ * (((q' : ℚ) * 2 ^ s - ((Q : ℚ) + f)) * 2 ^ E) by
            rw [zpow_add₀ (by norm_num : (2 : ℚ) ≠ 0), zpow_natCast]
            ring]
        rw [abs_mul, hσabs, one_mul, abs_mul, abs_of_pos hEpos]
      have htabs : |toQ a / toQ b| = ((Q : ℚ) + f) * 2 ^ E := by
        rw [htgtv, abs_mul, abs_mul, hσabs, one_mul, abs_of_pos hEpos,
          abs_of_nonneg (by positivity)]
      rw [hdiff, htabs]
      have hQbig : (2 : ℚ) ^ (p + s - 1) ≤ (Q : ℚ) + f := by
        have : ((2 : ℕ) ^ (p + s - 1) : ℚ) ≤ (Q : ℚ) := by exact_mod_cast hQs.1
        push_cast at this
        linarith
      rw [le_div_iff₀ (by positivity : (0 : ℚ) < (2 : ℚ) ^ p)]
      have hstep : |(q' : ℚ) * 2 ^ s - ((Q : ℚ) + f)| * 2 ^ E ≤ 2 ^ (s - 1) * 2 ^ E := by
        have hr2 : |(q' : ℚ) * 2 ^ s - ((Q : ℚ) + f)| ≤ 2 ^ (s - 1) := by
          rw [← hQf]
          push_cast at hrnd
          exact hrnd
        exact mul_le_mul_of_nonneg_right hr2 (le_of_lt hEpos)
      calc |(q' : ℚ) * 2 ^ s - ((Q : ℚ) + f)| * 2 ^ E * 2 ^ p
          ≤ 2 ^ (s - 1) * 2 ^ E * 2 ^ p := by
            exact mul_le_mul_of_nonneg_right hstep (by positivity)
        _ = 2 ^ (p + s - 1) * 2 ^ E := by
            rw [show p + s - 1 = p + (s - 1) by omega, pow_add]
            ring
        _ ≤ ((Q : ℚ) + f) * 2 ^ E := mul_le_mul_of_nonneg_right hQbig (le_of_lt hEpos)

end Dy

/-- When no stored circumcircle strictly contains `p`, the partition loop of
`Insert` collects no edge and keeps every triangle in order. -/
theorem badStep_no_bad (p : Point) (ts : List Triangle)
    (h : ∀ t ∈ ts, ¬((t.circle.x - p.x) * (t.circle.x - p.x) +
      (t.circle.y - p.y) * (t.circle.y - p.y) < t.circle.radius)) :
    ∀ acc : List Edge × List Triangle, ts.foldl (badStep p) acc = (acc.1, acc.2 ++ ts) := by
  induction ts with
  | nil =>
    intro acc
    simp
  | cons t ts ih =>
    intro acc
    rw [List.foldl_cons]
    have hbad := h t (by simp)
    have hstep : badStep p acc t = (acc.1, acc.2 ++ [t]) := by
      unfold badStep
      rw [if_neg hbad]
    rw [hstep, ih (fun t' ht' => h t' (by simp [ht']))]
    simp

/-- When no stored circumcircle strictly contains `p`, processing `p` leaves
the state unchanged. -/
theorem insertPoint_no_bad (d : Delaunay) (p : Point)
    (h : ∀ t ∈ d.triangles, ¬((t.circle.x - p.x) * (t.circle.x - p.x) +
      (t.circle.y - p.y) * (t.circle.y - p.y) < t.circle.radius)) :
    insertPoint d p = d := by
  unfold insertPoint
  rw [badStep_no_bad p d.triangles h ([], [])]
  simp

/-- C10: a point whose squared distance to every stored circumcircle centre
is at least that circle's stored squared radius marks no triangle as bad:
`Insert` leaves the triangle list exactly as it was, and the point does not
become a node of any triangle — it is silently dropped, not rejected. -/
theorem C10_far_point_silently_dropped (d : Delaunay) (p : Point)
    (h : ∀ t ∈ d.triangles, t.circle.radius ≤
      (t.circle.x - p.x) * (t.circle.x - p.x) +
      (t.circle.y - p.y) * (t.circle.y - p.y)) :
    (d.Insert [p]).triangles = d.triangles ∧
    ((∀ t ∈ d.triangles, ¬t.hasNode (newNode p.x p.y)) →
      ∀ t ∈ (d.Insert [p]).triangles, ¬t.hasNode (newNode p.x p.y)) := by
  have hstep : d.Insert [p] = insertPoint d p := rfl
  have hno := insertPoint_no_bad d p (fun t ht => not_lt.mpr (h t ht))
  rw [hstep, hno]
  exact ⟨rfl, fun hfresh => hfresh⟩

/-- Witness for `C10_far_point_silently_dropped` at the initial 4×4 state and
the far point (100, 100). -/
theorem C10_far_point_silently_dropped_witness :
    ((Delaunay.Init 4 4).Insert [⟨100, 100⟩]).triangles =
      (Delaunay.Init 4 4).triangles ∧
    ((∀ t ∈ (Delaunay.Init 4 4).triangles, ¬t.hasNode (newNode 100 100)) →
      ∀ t ∈ ((Delaunay.Init 4 4).Insert [⟨100, 100⟩]).triangles,
        ¬t.hasNode (newNode 100 100)) :=
  C10_far_point_silently_dropped (Delaunay.Init 4 4) ⟨100, 100⟩ (by decide)

/-- C2 (counterexample): inserting the interior point (1, 1) twice into the
2×3 rectangle yields six triangles, while inserting it once yields four —
the two collections are not equal up to any reordering.  The second insertion
finds two of the four fan triangles bad, and the surviving cavity edges
incident to the point rebuild two degenerate triangles with a duplicated
node.  (The extra triangles are built in the last step, so their stored
garbage circumcircles are never consulted; lengths and node lists are
platform-independent.) -/
theorem C2_counterexample_duplicate_point :
    ¬List.Perm (((Delaunay.Init 2 3).Insert [⟨1, 1⟩, ⟨1, 1⟩]).triangles)
      (((Delaunay.Init 2 3).Insert [⟨1, 1⟩]).triangles) := by
  intro hperm
  have hlen := hperm.length_eq
  revert hlen
  decide

/-- C2 (amended): if, after the first insertion of `p`, no stored
circumcircle strictly contains `p`, then inserting `[p, p]` produces exactly
the collection produced by inserting `[p]` — the second insertion is a
no-op. -/
theorem C2_duplicate_point_noop_when_outside (W H : ℤ) (p : Point)
    (h : ∀ t ∈ ((Delaunay.Init W H).Insert [p]).triangles, t.circle.radius ≤
      (t.circle.x - p.x) * (t.circle.x - p.x) +
      (t.circle.y - p.y) * (t.circle.y - p.y)) :
    (Delaunay.Init W H).Insert [p, p] = (Delaunay.Init W H).Insert [p] := by
  have h2 : (Delaunay.Init W H).Insert [p, p] =
      insertPoint ((Delaunay.Init W H).Insert [p]) p := rfl
  rw [h2]
  exact insertPoint_no_bad _ _ (fun t ht => not_lt.mpr (h t ht))

/-- Witness for `C2_duplicate_point_noop_when_outside` on the 2×2 rectangle
with the centre point. -/
theorem C2_duplicate_point_noop_witness :
    (Delaunay.Init 2 2).Insert [⟨1, 1⟩, ⟨1, 1⟩] = (Delaunay.Init 2 2).Insert [⟨1, 1⟩] :=
  C2_duplicate_point_noop_when_outside 2 2 ⟨1, 1⟩ (by decide)

theorem m_nonneg_of_toQ_pos (x : Dy) (h : 0 < Dy.toQ x) : 0 ≤ x.m := by
  by_contra h0
  have hm : (x.m : ℚ) < 0 := by exact_mod_cast not_le.mp h0
  have : Dy.toQ x < 0 := mul_neg_of_neg_of_pos hm (Dy.two_zpow_pos x.e)
  linarith

theorem toQ_c0001_lt : Dy.toQ c0001 < 1 / 2 ∧ 0 < Dy.toQ c0001 := by
  have hval : Dy.toQ c0001 = 7378697629483821 / 2 ^ 66 := by
    show Dy.toQ ⟨7378697629483821, -66⟩ = _
    rw [Dy.toQ_mk, show (-66 : ℤ) = -(66 : ℕ) by norm_num, zpow_neg, zpow_natCast]
    ring
  rw [hval]
  norm_num

/-- The float comparison `float64(d) < 0.0001` on a nonnegative integer `d`
holds exactly when `d = 0`. -/
theorem blt_i2f_c0001 (d : ℤ) (hd : 0 ≤ d) :
    Dy.bltD (Dy.i2f 53 d) c0001 = true ↔ d = 0 := by
  rw [Dy.bltD_iff]
  constructor
  · intro hlt
    by_contra h0
    have hd1 : 1 ≤ d := by omega
    have herr := Dy.i2f_err 53 d
    have hdQ : (1 : ℚ) ≤ (d : ℚ) := by exact_mod_cast hd1
    have habs : |(d : ℚ)| = (d : ℚ) := abs_of_nonneg (by linarith)
    rw [habs] at herr
    have hge : (1 : ℚ) / 2 ≤ Dy.toQ (Dy.i2f 53 d) := by
      have h1 := (abs_le.mp herr).1
      have h2 : (d : ℚ) / 2 ^ 53 ≤ (d : ℚ) / 2 := by
        apply div_le_div_of_nonneg_left (by linarith) (by norm_num) (by norm_num)
      nlinarith
    have := toQ_c0001_lt.1
    linarith
  · intro h0
    rw [h0]
    have : Dy.i2f 53 0 = ⟨0, 0⟩ := rfl
    rw [this]
    have h0q : Dy.toQ ⟨0, 0⟩ = 0 := by
      rw [Dy.toQ_mk]
      ring
    rw [h0q]
    exact toQ_c0001_lt.2

/-- `Node.isEq` decides exact coordinate equality: for integer coordinates
the `0.0001` float tolerance admits only difference zero. -/
theorem nodeIsEq_iff (n p : Node) : nodeIsEq n p = true ↔ n = p := by
  unfold nodeIsEq
  rw [Bool.and_eq_true]
  have hx : (0 : ℤ) ≤ (if n.X - p.X < 0 then -(n.X - p.X) else n.X - p.X) := by
    split_ifs <;> omega
  have hy : (0 : ℤ) ≤ (if n.Y - p.Y < 0 then -(n.Y - p.Y) else n.Y - p.Y) := by
    split_ifs <;> omega
  rw [blt_i2f_c0001 _ hx, blt_i2f_c0001 _ hy]
  constructor
  · intro ⟨h1, h2⟩
    have hX : n.X = p.X := by
      by_cases hc : n.X - p.X < 0 <;> simp [hc] at h1 <;> omega
    have hY : n.Y = p.Y := by
      by_cases hc : n.Y - p.Y < 0 <;> simp [hc] at h2 <;> omega
    cases n
    cases p
    simp_all
  · intro h
    rw [h]
    constructor <;> · split_ifs <;> omega

theorem nodeIsEq_self (n : Node) : nodeIsEq n n = true := (nodeIsEq_iff n n).mpr rfl

theorem nodeIsEq_false (n p : Node) (h : n ≠ p) : nodeIsEq n p = false := by
  cases hb : nodeIsEq n p
  · rfl
  · exact absurd ((nodeIsEq_iff n p).mp hb) h

/-- Relative-error composition: the stored centre coordinate exceeds
`(M / (2 D)) * (1 - 2⁻⁴⁹) - 1`. -/
theorem centerTrunc_lower (M D : ℤ) (hM : 0 < M) (hD : 0 < D) :
    (M : ℚ) / (2 * D) * (1 - (1 / 2 ^ 49 : ℚ)) - 1 < (centerTrunc M D : ℚ) := by
  set ε : ℚ := 1 / 2 ^ 53 with hε
  have hε0 : 0 < ε := by positivity
  have hε8 : ε ≤ 1 / 8 := by rw [hε]; norm_num
  have h1e : (0 : ℚ) < 1 - ε := by rw [hε]; norm_num
  have h1e' : (0 : ℚ) < 1 + ε := by rw [hε]; norm_num
  have hMQ : (1 : ℚ) ≤ (M : ℚ) := by exact_mod_cast hM
  have hDQ : (1 : ℚ) ≤ (D : ℚ) := by exact_mod_cast hD
  -- conversion of D
  have hdD := Dy.i2f_err 53 D
  rw [abs_of_nonneg (by linarith : (0 : ℚ) ≤ (D : ℚ))] at hdD
  have hdDe : (D : ℚ) / 2 ^ 53 = (D : ℚ) * ε := by rw [hε]; ring
  rw [hdDe] at hdD
  obtain ⟨hdD1, hdD2⟩ := abs_le.mp hdD
  have hdDlow : (D : ℚ) * (1 - ε) ≤ Dy.toQ (Dy.i2f 53 D) := by linarith
  have hdDup : Dy.toQ (Dy.i2f 53 D) ≤ (D : ℚ) * (1 + ε) := by linarith
  have hdDpos : 0 < Dy.toQ (Dy.i2f 53 D) := by
    have := mul_pos (show (0 : ℚ) < (D : ℚ) by linarith) h1e
    linarith
  -- subtraction of float64(0)
  have hzero : Dy.toQ (Dy.i2f 53 0) = 0 := by
    show Dy.toQ ⟨0, 0⟩ = 0
    rw [Dy.toQ_mk]
    ring
  set sub := Dy.subD 53 (Dy.i2f 53 D) (Dy.i2f 53 0) with hsub
  have hsubE := Dy.subD_err 53 (Dy.i2f 53 D) (Dy.i2f 53 0)
  rw [hzero, sub_zero, abs_of_pos hdDpos,
    show Dy.toQ (Dy.i2f 53 D) / 2 ^ 53 = Dy.toQ (Dy.i2f 53 D) * ε from by rw [hε]; ring]
    at hsubE
  obtain ⟨hsub1, hsub2⟩ := abs_le.mp hsubE
  have hsublow : (D : ℚ) * (1 - ε) * (1 - ε) ≤ Dy.toQ sub := by
    have key := mul_le_mul_of_nonneg_right hdDlow (le_of_lt h1e)
    linarith [key]
  have hsubup : Dy.toQ sub ≤ (D : ℚ) * (1 + ε) * (1 + ε) := by
    have key := mul_le_mul_of_nonneg_right hdDup (le_of_lt h1e')
    linarith [key]
  have hsubpos : 0 < Dy.toQ sub := by
    have : (0 : ℚ) < (D : ℚ) * (1 - ε) * (1 - ε) :=
      mul_pos (mul_pos (by linarith) h1e) h1e
    linarith
  -- multiplication by 2.0
  set den := Dy.mulD 53 ⟨2, 0⟩ sub with hden
  have htwo : Dy.toQ ⟨2, 0⟩ = 2 := by
    rw [Dy.toQ_mk]
    norm_num
  have hdenE := Dy.mulD_err 53 ⟨2, 0⟩ sub
  rw [htwo, abs_of_pos (by linarith : (0 : ℚ) < 2 * Dy.toQ sub),
    show 2 * Dy.toQ sub / 2 ^ 53 = 2 * Dy.toQ sub * ε from by rw [hε]; ring] at hdenE
  obtain ⟨hden1, hden2⟩ := abs_le.mp hdenE
  have hdenlow : 2 * (D : ℚ) * (1 - ε) ^ 3 ≤ Dy.toQ den := by
    have key := mul_le_mul_of_nonneg_right hsublow (le_of_lt h1e)
    linarith [key]
  have hdenup : Dy.toQ den ≤ 2 * (D : ℚ) * (1 + ε) ^ 3 := by
    have key := mul_le_mul_of_nonneg_right hsubup (le_of_lt h1e')
    linarith [key]
  have hdenpos : 0 < Dy.toQ den := by
    have h3 : (0 : ℚ) < 2 * (D : ℚ) * (1 - ε) ^ 3 := by positivity
    linarith
  have hdenm : den.m ≠ 0 := by
    intro h0
    have : Dy.toQ den = 0 := by
      rw [Dy.toQ_mk, h0]
      push_cast
      ring
    linarith
  -- reciprocal
  obtain ⟨sv, hsv, hsvE⟩ := Dy.divD_err 53 ⟨1, 0⟩ den hdenm
  have hone : Dy.toQ ⟨1, 0⟩ = 1 := by
    rw [Dy.toQ_mk]
    norm_num
  rw [hone] at hsvE
  have hinvpos : 0 < 1 / Dy.toQ den := by positivity
  rw [abs_of_pos hinvpos,
    show 1 / Dy.toQ den / 2 ^ 53 = 1 / Dy.toQ den * ε from by rw [hε]; ring] at hsvE
  obtain ⟨hsv1, hsv2⟩ := abs_le.mp hsvE
  set Dup : ℚ := 2 * (D : ℚ) * (1 + ε) ^ 3 with hDup
  have hDuppos : (0 : ℚ) < Dup := by rw [hDup]; positivity
  have hsvlow : 1 / Dup * (1 - ε) ≤ Dy.toQ sv := by
    have hmono : 1 / Dup ≤ 1 / Dy.toQ den := by
      rw [hDup]
      exact one_div_le_one_div_of_le hdenpos hdenup
    have key := mul_le_mul_of_nonneg_right hmono (le_of_lt h1e)
    linarith [key]
  have hsvpos : 0 < Dy.toQ sv := by
    have h3 : (0 : ℚ) < 1 / Dup * (1 - ε) := mul_pos (by positivity) h1e
    linarith
  -- conversion of M
  have hdM := Dy.i2f_err 53 M
  rw [abs_of_nonneg (by linarith : (0 : ℚ) ≤ (M : ℚ)),
    show (M : ℚ) / 2 ^ 53 = (M : ℚ) * ε from by rw [hε]; ring] at hdM
  obtain ⟨hdM1, hdM2⟩ := abs_le.mp hdM
  have hdMlow : (M : ℚ) * (1 - ε) ≤ Dy.toQ (Dy.i2f 53 M) := by linarith
  have hdMpos : 0 < Dy.toQ (Dy.i2f 53 M) := by
    have := mul_pos (show (0 : ℚ) < (M : ℚ) by linarith) h1e
    linarith
  -- final product
  set v := Dy.mulD 53 (Dy.i2f 53 M) sv with hv
  have hvE := Dy.mulD_err 53 (Dy.i2f 53 M) sv
  have hprodpos : 0 < Dy.toQ (Dy.i2f 53 M) * Dy.toQ sv := mul_pos hdMpos hsvpos
  rw [abs_of_pos hprodpos,
    show Dy.toQ (Dy.i2f 53 M) * Dy.toQ sv / 2 ^ 53 = Dy.toQ (Dy.i2f 53 M) * Dy.toQ sv * ε
      from by rw [hε]; ring] at hvE
  obtain ⟨hv1, hv2⟩ := abs_le.mp hvE
  have hvlow : Dy.toQ (Dy.i2f 53 M) * Dy.toQ sv * (1 - ε) ≤ Dy.toQ v := by linarith
  -- compose all lower bounds
  have hm1 : (M : ℚ) * (1 - ε) * (1 / Dup * (1 - ε)) ≤
      Dy.toQ (Dy.i2f 53 M) * Dy.toQ sv := by
    apply mul_le_mul hdMlow hsvlow (le_of_lt (mul_pos (by positivity) h1e))
      (le_of_lt hdMpos)
  have hchain : (M : ℚ) * (1 - ε) * (1 / Dup * (1 - ε)) * (1 - ε) ≤ Dy.toQ v := by
    have key := mul_le_mul_of_nonneg_right hm1 (le_of_lt h1e)
    exact le_trans key hvlow
  have hform : (M : ℚ) * (1 - ε) * (1 / Dup * (1 - ε)) * (1 - ε) =
      (M : ℚ) / (2 * D) * ((1 - ε) ^ 3 / (1 + ε) ^ 3) := by
    rw [hDup]
    have hD0 : (D : ℚ) ≠ 0 := by linarith
    have h1e0 : (1 : ℚ) + ε ≠ 0 := by linarith
    field_simp
    ring
  rw [hform] at hchain
  have hratio : (1 : ℚ) - 1 / 2 ^ 49 ≤ (1 - ε) ^ 3 / (1 + ε) ^ 3 := by
    rw [hε, le_div_iff₀ (by norm_num : (0 : ℚ) < (1 + 1 / 2 ^ 53) ^ 3)]
    norm_num
  have hMD : (0 : ℚ) < (M : ℚ) / (2 * D) := by positivity
  have hvgood : (M : ℚ) / (2 * D) * (1 - 1 / 2 ^ 49) ≤ Dy.toQ v := by
    calc (M : ℚ) / (2 * D) * (1 - 1 / 2 ^ 49)
        ≤ (M : ℚ) / (2 * D) * ((1 - ε) ^ 3 / (1 + ε) ^ 3) :=
          mul_le_mul_of_nonneg_left hratio (le_of_lt hMD)
      _ ≤ Dy.toQ v := hchain
  have hvpos : 0 < Dy.toQ v := by
    have h3 : (0 : ℚ) < (M : ℚ) / (2 * D) * (1 - 1 / 2 ^ 49) := by
      apply mul_pos hMD
      norm_num
    linarith
  have hvm : 0 ≤ v.m := m_nonneg_of_toQ_pos v hvpos
  have hct : centerTrunc M D = ⌊Dy.toQ v⌋ := by
    unfold centerTrunc
    rw [← hsub, ← hden, hsv]
    show Dy.truncD (Dy.mulD 53 (Dy.i2f 53 M) sv) = _
    rw [← hv]
    exact Dy.truncD_eq_floor v hvm
  rw [hct]
  have hfl : Dy.toQ v - 1 < (⌊Dy.toQ v⌋ : ℚ) := Int.sub_one_lt_floor _
  linarith

/-- The circumcircle stored by `newTriangle` for the first seed triangle
(0,0)-(W,0)-(W,H): both centre coordinates come from the same float64
expression family, parametrised by the integer products `W*W*H`, `W*H*H`
and the doubled signed area `W*H`. -/
theorem seed_circle1 (W H : ℤ) :
    (newTriangle (newNode 0 0) (newNode W 0) (newNode W H)).circle =
      ⟨centerTrunc (W * W * H) (W * H), centerTrunc (W * H * H) (W * H),
        centerTrunc (W * W * H) (W * H) * centerTrunc (W * W * H) (W * H) +
          centerTrunc (W * H * H) (W * H) * centerTrunc (W * H * H) (W * H)⟩ := by
  unfold newTriangle centerTrunc newNode
  ring_nf

/-- The circumcircle stored by `newTriangle` for the second seed triangle
(0,0)-(W,H)-(0,H) coincides with the first one. -/
theorem seed_circle2 (W H : ℤ) :
    (newTriangle (newNode 0 0) (newNode W H) (newNode 0 H)).circle =
      ⟨centerTrunc (W * W * H) (W * H), centerTrunc (W * H * H) (W * H),
        centerTrunc (W * W * H) (W * H) * centerTrunc (W * W * H) (W * H) +
          centerTrunc (W * H * H) (W * H) * centerTrunc (W * H * H) (W * H)⟩ := by
  unfold newTriangle centerTrunc newNode
  ring_nf

/-- Lower bound for `t^2 - 2t` minus the rounding slop when `t ≥ 3`. -/
theorem gbound3 (t : ℚ) (h : 3 ≤ t) : 2 ≤ t ^ 2 - 2 * t - (1 / 2 ^ 48) * t ^ 2 := by
  nlinarith [sq_nonneg (t - 3), mul_nonneg (show (0:ℚ) ≤ t - 3 by linarith) (show (0:ℚ) ≤ t - 3 by linarith)]

/-- Lower bound for `t^2 - 2t` minus the rounding slop when `1 ≤ t ≤ 2`. -/
theorem gboundSmall (t : ℚ) (_h1 : 1 ≤ t) (h2 : t ≤ 2) :
    -2 ≤ t ^ 2 - 2 * t - (1 / 2 ^ 48) * t ^ 2 := by
  nlinarith [sq_nonneg (t - 1), mul_le_mul h2 h2 (by linarith) (by norm_num)]

/-- Key inequality for the corner fan: when the truncated centre `(cx, cy)`
is within the float64 rounding slop of `(a, b) = (W/2, H/2)` and one of the
half-sides is at least 3, the midpoint lies strictly inside the stored
circumcircle. -/
theorem fan_key (a b cx cy : ℚ)
    (ha1 : 1 ≤ a) (hb1 : 1 ≤ b)
    (hsa : a ≤ 2 ∨ 3 ≤ a) (hsb : b ≤ 2 ∨ 3 ≤ b)
    (hbig : 3 ≤ a ∨ 3 ≤ b)
    (hcx : a * (1 - 1 / 2 ^ 49) - 1 < cx) (hcy : b * (1 - 1 / 2 ^ 49) - 1 < cy) :
    a ^ 2 + b ^ 2 < 2 * (a * cx + b * cy) := by
  have hap : (0 : ℚ) < a := by linarith
  have hbp : (0 : ℚ) < b := by linarith
  have h1 := mul_lt_mul_of_pos_left hcx hap
  have h2 := mul_lt_mul_of_pos_left hcy hbp
  have hga : -2 ≤ a ^ 2 - 2 * a - (1 / 2 ^ 48) * a ^ 2 := by
    rcases hsa with h | h
    · exact gboundSmall a ha1 h
    · linarith [gbound3 a h]
  have hgb : -2 ≤ b ^ 2 - 2 * b - (1 / 2 ^ 48) * b ^ 2 := by
    rcases hsb with h | h
    · exact gboundSmall b hb1 h
    · linarith [gbound3 b h]
  have hsum : 0 ≤ (a ^ 2 - 2 * a - (1 / 2 ^ 48) * a ^ 2) +
      (b ^ 2 - 2 * b - (1 / 2 ^ 48) * b ^ 2) := by
    rcases hbig with h | h
    · linarith [gbound3 a h, hgb]
    · linarith [gbound3 b h, hga]
  nlinarith [h1, h2, hsum]

/-- C1: for every rectangle with `W > 1` and `H > 1`, initialising the
Delaunay state with `Init W H` and inserting the single point
`(W/2, H/2)` yields exactly 4 triangles, each having `(W/2, H/2)` as a
node (the corners fan).  Small rectangles are checked by enumeration, the
general case by bounding the float64 rounding error of the stored
circumcircle. -/
theorem C1_corner_fan (W H : ℤ) (hW : 1 < W) (hH : 1 < H) :
    (((Delaunay.Init W H).Insert [⟨W / 2, H / 2⟩]).triangles.length = 4) ∧
    ∀ t ∈ ((Delaunay.Init W H).Insert [⟨W / 2, H / 2⟩]).triangles,
      t.hasNode (newNode (W / 2) (H / 2)) := by
  by_cases hsmall : W ≤ 5 ∧ H ≤ 5
  · obtain ⟨hW5, hH5⟩ := hsmall
    interval_cases W <;> interval_cases H <;> exact ⟨by decide, by decide⟩
  · set a : ℤ := W / 2 with hadef
    set b : ℤ := H / 2 with hbdef
    have haW : 2 * a ≤ W ∧ W ≤ 2 * a + 1 := by omega
    have hbH : 2 * b ≤ H ∧ H ≤ 2 * b + 1 := by omega
    have ha1 : 1 ≤ a := by omega
    have hb1 : 1 ≤ b := by omega
    have hbig : 3 ≤ a ∨ 3 ≤ b := by omega
    -- centre bounds
    set cx : ℤ := centerTrunc (W * W * H) (W * H) with hcxdef
    set cy : ℤ := centerTrunc (W * H * H) (W * H) with hcydef
    have hWQ : (2 : ℚ) ≤ (W : ℚ) := by exact_mod_cast hW
    have hHQ : (2 : ℚ) ≤ (H : ℚ) := by exact_mod_cast hH
    have hcxlow := centerTrunc_lower (W * W * H) (W * H) (by positivity) (by positivity)
    have hcylow := centerTrunc_lower (W * H * H) (W * H) (by positivity) (by positivity)
    have hxval : ((W * W * H : ℤ) : ℚ) / (2 * ((W * H : ℤ) : ℚ)) = (W : ℚ) / 2 := by
      push_cast
      field_simp
      ring
    have hyval : ((W * H * H : ℤ) : ℚ) / (2 * ((W * H : ℤ) : ℚ)) = (H : ℚ) / 2 := by
      push_cast
      field_simp
      ring
    rw [hxval] at hcxlow
    rw [hyval] at hcylow
    -- relate to a, b
    have haQ : (a : ℚ) ≤ (W : ℚ) / 2 := by
      have := haW.1
      have : ((2 * a : ℤ) : ℚ) ≤ (W : ℚ) := by exact_mod_cast this
      push_cast at this
      linarith
    have hbQ : (b : ℚ) ≤ (H : ℚ) / 2 := by
      have := hbH.1
      have : ((2 * b : ℤ) : ℚ) ≤ (H : ℚ) := by exact_mod_cast this
      push_cast at this
      linarith
    have hcxa : (a : ℚ) * (1 - 1 / 2 ^ 49) - 1 < (cx : ℚ) := by
      have hmono : (a : ℚ) * (1 - 1 / 2 ^ 49) ≤ (W : ℚ) / 2 * (1 - 1 / 2 ^ 49) :=
        mul_le_mul_of_nonneg_right haQ (by norm_num)
      rw [hcxdef]
      linarith
    have hcyb : (b : ℚ) * (1 - 1 / 2 ^ 49) - 1 < (cy : ℚ) := by
      have hmono : (b : ℚ) * (1 - 1 / 2 ^ 49) ≤ (H : ℚ) / 2 * (1 - 1 / 2 ^ 49) :=
        mul_le_mul_of_nonneg_right hbQ (by norm_num)
      rw [hcydef]
      linarith
    have hkeyQ : (a : ℚ) ^ 2 + (b : ℚ) ^ 2 < 2 * ((a : ℚ) * cx + (b : ℚ) * cy) :=
      fan_key _ _ _ _ (by exact_mod_cast ha1) (by exact_mod_cast hb1)
        (by rcases (show a ≤ 2 ∨ 3 ≤ a by omega) with h | h
            · exact Or.inl (by exact_mod_cast h)
            · exact Or.inr (by exact_mod_cast h))
        (by rcases (show b ≤ 2 ∨ 3 ≤ b by omega) with h | h
            · exact Or.inl (by exact_mod_cast h)
            · exact Or.inr (by exact_mod_cast h))
        (by rcases hbig with h | h
            · exact Or.inl (by exact_mod_cast h)
            · exact Or.inr (by exact_mod_cast h))
        hcxa hcyb
    have hkey : a * a + b * b < 2 * (a * cx + b * cy) := by
      have : (a : ℚ) * a + (b : ℚ) * b < 2 * ((a : ℚ) * cx + (b : ℚ) * cy) := by
        nlinarith [hkeyQ]
      exact_mod_cast this
    have hbadC : (cx - a) * (cx - a) + (cy - b) * (cy - b) < cx * cx + cy * cy := by
      nlinarith [hkey]
    -- structural evaluation
    set pn : Node := newNode a b with hpn
    set p : Point := ⟨a, b⟩ with hp
    set p00 : Node := newNode 0 0 with h00
    set pW0 : Node := newNode W 0 with hW0n
    set pWH : Node := newNode W H with hWHn
    set p0H : Node := newNode 0 H with h0Hn
    set T1 : Triangle := newTriangle p00 pW0 pWH with hT1
    set T2 : Triangle := newTriangle p00 pWH p0H with hT2
    have hinit : (Delaunay.Init W H).triangles = [T1, T2] := rfl
    have hC1 : T1.circle = ⟨cx, cy, cx * cx + cy * cy⟩ := by
      rw [hT1, h00, hW0n, hWHn, seed_circle1, hcxdef, hcydef]
    have hC2 : T2.circle = ⟨cx, cy, cx * cx + cy * cy⟩ := by
      rw [hT2, h00, hWHn, h0Hn, seed_circle2, hcxdef, hcydef]
    have hbad1 : badStep p ([], []) T1 = ([T1.e0, T1.e1, T1.e2], []) := by
      unfold badStep
      rw [hC1]
      rw [if_pos (by simpa using hbadC)]
      rfl
    have hbad2 : badStep p ([T1.e0, T1.e1, T1.e2], []) T2 =
        ([T1.e0, T1.e1, T1.e2, T2.e0, T2.e1, T2.e2], []) := by
      unfold badStep
      rw [hC2]
      rw [if_pos (by simpa using hbadC)]
      rfl
    -- the six candidate edges
    have hT1e : T1.e0 = ⟨p00, pW0⟩ ∧ T1.e1 = ⟨pW0, pWH⟩ ∧ T1.e2 = ⟨pWH, p00⟩ :=
      ⟨rfl, rfl, rfl⟩
    have hT2e : T2.e0 = ⟨p00, pWH⟩ ∧ T2.e1 = ⟨pWH, p0H⟩ ∧ T2.e2 = ⟨p0H, p00⟩ :=
      ⟨rfl, rfl, rfl⟩
    -- node distinctness
    have hWz : W ≠ 0 := by omega
    have hHz : H ≠ 0 := by omega
    have hn1 : p00 ≠ pW0 := by
      rw [h00, hW0n]
      intro hcon
      rw [newNode, newNode, Node.mk.injEq] at hcon
      omega
    have hn2 : p00 ≠ pWH := by
      rw [h00, hWHn]
      intro hcon
      rw [newNode, newNode, Node.mk.injEq] at hcon
      omega
    have hn3 : p00 ≠ p0H := by
      rw [h00, h0Hn]
      intro hcon
      rw [newNode, newNode, Node.mk.injEq] at hcon
      omega
    have hn4 : pW0 ≠ pWH := by
      rw [hW0n, hWHn]
      intro hcon
      rw [newNode, newNode, Node.mk.injEq] at hcon
      omega
    have hn5 : pW0 ≠ p0H := by
      rw [hW0n, h0Hn]
      intro hcon
      rw [newNode, newNode, Node.mk.injEq] at hcon
      omega
    have hn6 : pWH ≠ p0H := by
      rw [hWHn, h0Hn]
      intro hcon
      rw [newNode, newNode, Node.mk.injEq] at hcon
      omega
    -- edge comparisons occurring during the polygon scan
    have hE21 : edgeIsEq ⟨pW0, pWH⟩ ⟨p00, pW0⟩ = false := by
      unfold edgeIsEq
      rw [nodeIsEq_false _ _ (Ne.symm hn1), nodeIsEq_false _ _ (Ne.symm hn4),
        nodeIsEq_self, nodeIsEq_false _ _ (Ne.symm hn2)]
      rfl
    have hE31 : edgeIsEq ⟨pWH, p00⟩ ⟨p00, pW0⟩ = false := by
      unfold edgeIsEq
      rw [nodeIsEq_false _ _ (Ne.symm hn2), nodeIsEq_false _ _ hn1,
        nodeIsEq_false _ _ (Ne.symm hn4), nodeIsEq_self]
      rfl
    have hE32 : edgeIsEq ⟨pWH, p00⟩ ⟨pW0, pWH⟩ = false := by
      unfold edgeIsEq
      rw [nodeIsEq_false _ _ (Ne.symm hn4), nodeIsEq_false _ _ hn2,
        nodeIsEq_self, nodeIsEq_false _ _ hn1]
      rfl
    have hE41 : edgeIsEq ⟨p00, pWH⟩ ⟨p00, pW0⟩ = false := by
      unfold edgeIsEq
      rw [nodeIsEq_self, nodeIsEq_false _ _ (Ne.symm hn4),
        nodeIsEq_false _ _ hn1, nodeIsEq_false _ _ (Ne.symm hn2)]
      rfl
    have hE42 : edgeIsEq ⟨p00, pWH⟩ ⟨pW0, pWH⟩ = false := by
      unfold edgeIsEq
      rw [nodeIsEq_false _ _ hn1, nodeIsEq_self,
        nodeIsEq_false _ _ hn2, nodeIsEq_false _ _ (Ne.symm hn4)]
      rfl
    have hE43 : edgeIsEq ⟨p00, pWH⟩ ⟨pWH, p00⟩ = true := by
      unfold edgeIsEq
      rw [nodeIsEq_false _ _ hn2, nodeIsEq_false _ _ (Ne.symm hn2),
        nodeIsEq_self, nodeIsEq_self]
      rfl
    have hE51 : edgeIsEq ⟨pWH, p0H⟩ ⟨p00, pW0⟩ = false := by
      unfold edgeIsEq
      rw [nodeIsEq_false _ _ (Ne.symm hn2), nodeIsEq_false _ _ (Ne.symm hn5),
        nodeIsEq_false _ _ (Ne.symm hn4), nodeIsEq_false _ _ (Ne.symm hn3)]
      rfl
    have hE52 : edgeIsEq ⟨pWH, p0H⟩ ⟨pW0, pWH⟩ = false := by
      unfold edgeIsEq
      rw [nodeIsEq_false _ _ (Ne.symm hn4), nodeIsEq_false _ _ (Ne.symm hn6),
        nodeIsEq_self, nodeIsEq_false _ _ (Ne.symm hn5)]
      rfl
    have hE61 : edgeIsEq ⟨p0H, p00⟩ ⟨p00, pW0⟩ = false := by
      unfold edgeIsEq
      rw [nodeIsEq_false _ _ (Ne.symm hn3), nodeIsEq_false _ _ hn1,
        nodeIsEq_false _ _ (Ne.symm hn5), nodeIsEq_self]
      rfl
    have hE62 : edgeIsEq ⟨p0H, p00⟩ ⟨pW0, pWH⟩ = false := by
      unfold edgeIsEq
      rw [nodeIsEq_false _ _ (Ne.symm hn5), nodeIsEq_false _ _ hn2,
        nodeIsEq_false _ _ (Ne.symm hn6), nodeIsEq_false _ _ hn1]
      rfl
    have hE65 : edgeIsEq ⟨p0H, p00⟩ ⟨pWH, p0H⟩ = false := by
      unfold edgeIsEq
      rw [nodeIsEq_false _ _ (Ne.symm hn6), nodeIsEq_false _ _ hn3,
        nodeIsEq_self, nodeIsEq_false _ _ hn2]
      rfl
    -- polygon scan
    have hp2 : polyInsert [⟨p00, pW0⟩] ⟨pW0, pWH⟩ = [⟨p00, pW0⟩, ⟨pW0, pWH⟩] := by
      simp [polyInsert, removeFirstEdge, hE21]
    have hp3 : polyInsert [⟨p00, pW0⟩, ⟨pW0, pWH⟩] ⟨pWH, p00⟩ =
        [⟨p00, pW0⟩, ⟨pW0, pWH⟩, ⟨pWH, p00⟩] := by
      simp [polyInsert, removeFirstEdge, hE31, hE32]
    have hp4 : polyInsert [⟨p00, pW0⟩, ⟨pW0, pWH⟩, ⟨pWH, p00⟩] ⟨p00, pWH⟩ =
        [⟨p00, pW0⟩, ⟨pW0, pWH⟩] := by
      simp [polyInsert, removeFirstEdge, hE41, hE42, hE43]
    have hp5 : polyInsert [⟨p00, pW0⟩, ⟨pW0, pWH⟩] ⟨pWH, p0H⟩ =
        [⟨p00, pW0⟩, ⟨pW0, pWH⟩, ⟨pWH, p0H⟩] := by
      simp [polyInsert, removeFirstEdge, hE51, hE52]
    have hp6 : polyInsert [⟨p00, pW0⟩, ⟨pW0, pWH⟩, ⟨pWH, p0H⟩] ⟨p0H, p00⟩ =
        [⟨p00, pW0⟩, ⟨pW0, pWH⟩, ⟨pWH, p0H⟩, ⟨p0H, p00⟩] := by
      simp [polyInsert, removeFirstEdge, hE61, hE62, hE65]
    -- assemble
    have hIns : (Delaunay.Init W H).Insert [p] = insertPoint (Delaunay.Init W H) p := rfl
    have hfold : (Delaunay.Init W H).triangles.foldl (badStep p) ([], []) =
        ([⟨p00, pW0⟩, ⟨pW0, pWH⟩, ⟨pWH, p00⟩, ⟨p00, pWH⟩, ⟨pWH, p0H⟩, ⟨p0H, p00⟩], []) := by
      rw [hinit]
      rw [List.foldl_cons, hbad1, List.foldl_cons, hbad2, List.foldl_nil]
      rw [hT1e.1, hT1e.2.1, hT1e.2.2, hT2e.1, hT2e.2.1, hT2e.2.2]
    have hpoly : ([⟨p00, pW0⟩, ⟨pW0, pWH⟩, ⟨pWH, p00⟩, ⟨p00, pWH⟩, ⟨pWH, p0H⟩,
        (⟨p0H, p00⟩ : Edge)] : List Edge).foldl polyInsert [] =
        [⟨p00, pW0⟩, ⟨pW0, pWH⟩, ⟨pWH, p0H⟩, ⟨p0H, p00⟩] := by
      simp only [List.foldl_cons, List.foldl_nil]
      rw [show polyInsert [] ⟨p00, pW0⟩ = [⟨p00, pW0⟩] from rfl, hp2, hp3, hp4, hp5, hp6]
    have hfinal : ((Delaunay.Init W H).Insert [p]).triangles =
        [newTriangle p00 pW0 pn, newTriangle pW0 pWH pn,
          newTriangle pWH p0H pn, newTriangle p0H p00 pn] := by
      rw [hIns]
      unfold insertPoint
      rw [hfold]
      simp only [hpoly, List.map_cons, List.map_nil, List.nil_append, hp, hpn]
    constructor
    · rw [hfinal]
      rfl
    · rw [hfinal]
      intro t ht
      simp only [List.mem_cons, List.not_mem_nil, or_false] at ht
      rcases ht with h | h | h | h
      · rw [h]; exact Or.inr (Or.inr rfl)
      · rw [h]; exact Or.inr (Or.inr rfl)
      · rw [h]; exact Or.inr (Or.inr rfl)
      · rw [h]; exact Or.inr (Or.inr rfl)

/-- Witness for `C1_corner_fan` at the concrete rectangle 2×2. -/
theorem C1_corner_fan_witness :
    1 < (2 : ℤ) ∧
    ((((Delaunay.Init 2 2).Insert [⟨2 / 2, 2 / 2⟩]).triangles.length = 4) ∧
      ∀ t ∈ ((Delaunay.Init 2 2).Insert [⟨2 / 2, 2 / 2⟩]).triangles,
        t.hasNode (newNode (2 / 2) (2 / 2))) :=
  ⟨by norm_num, C1_corner_fan 2 2 (by norm_num) (by norm_num)⟩

theorem getD_set_same (l : List ℕ) (i v : ℕ) (h : i < l.length) :
    (l.set i v).getD i 0 = v := by
  simp [List.getD_eq_getElem?_getD, List.getElem?_set_self, h]

theorem getD_set_other (l : List ℕ) (i j v : ℕ) (h : i ≠ j) :
    (l.set i v).getD j 0 = l.getD j 0 := by
  simp [List.getD_eq_getElem?_getD, List.getElem?_set_ne h]

theorem writePix_length (l : List ℕ) (off v : ℕ) :
    (writePix l off v).length = l.length := by
  simp [writePix]

theorem writePix_getD_other (l : List ℕ) (off v j : ℕ)
    (h : j < off ∨ off + 3 < j) :
    (writePix l off v).getD j 0 = l.getD j 0 := by
  unfold writePix
  rw [getD_set_other _ _ _ _ (by omega), getD_set_other _ _ _ _ (by omega),
    getD_set_other _ _ _ _ (by omega), getD_set_other _ _ _ _ (by omega)]

theorem writePix_getD_hit (l : List ℕ) (off v k : ℕ) (hk : k < 4)
    (hlen : off + 3 < l.length) :
    (writePix l off v).getD (off + k) 0 = if k = 3 then 255 else v := by
  have h4 : k = 0 ∨ k = 1 ∨ k = 2 ∨ k = 3 := by omega
  unfold writePix
  rcases h4 with rfl | rfl | rfl | rfl
  · rw [getD_set_other _ _ _ _ (by omega), getD_set_other _ _ _ _ (by omega),
      getD_set_other _ _ _ _ (by omega)]
    rw [show off + 0 = off from rfl, getD_set_same _ _ _ (by omega)]
    norm_num
  · rw [getD_set_other _ _ _ _ (by omega), getD_set_other _ _ _ _ (by omega),
      getD_set_same _ _ _ (by simp only [List.length_set]; omega)]
    norm_num
  · rw [getD_set_other _ _ _ _ (by omega),
      getD_set_same _ _ _ (by simp only [List.length_set]; omega)]
    norm_num
  · rw [getD_set_same _ _ _ (by simp only [List.length_set]; omega)]
    norm_num

theorem grayInner_length (src : Img) (x : ℕ) :
    ∀ (n : ℕ) (acc : List ℕ),
      ((List.range n).foldl (fun a y => setGray src.w a x y (grayAt src x y)) acc).length
        = acc.length := by
  intro n
  induction n with
  | zero => intro acc; rfl
  | succ n ih =>
    intro acc
    rw [List.range_succ, List.foldl_append]
    simp only [List.foldl_cons, List.foldl_nil]
    rw [setGray, writePix_length, ih]

theorem grayInner_getD_other (src : Img) (x : ℕ) :
    ∀ (n : ℕ) (acc : List ℕ) (j : ℕ),
      (∀ y, y < n → j < 4 * (y * src.w + x) ∨ 4 * (y * src.w + x) + 3 < j) →
      ((List.range n).foldl (fun a y => setGray src.w a x y (grayAt src x y)) acc).getD j 0
        = acc.getD j 0 := by
  intro n
  induction n with
  | zero => intro acc j _; rfl
  | succ n ih =>
    intro acc j h
    rw [List.range_succ, List.foldl_append]
    simp only [List.foldl_cons, List.foldl_nil]
    rw [setGray, writePix_getD_other _ _ _ _ (h n (Nat.lt_succ_self n)),
      ih acc j (fun y hy => h y (Nat.lt_succ_of_lt hy))]

theorem grayInner_getD_hit (src : Img) (x : ℕ) (hw : 0 < src.w) :
    ∀ (n : ℕ) (acc : List ℕ) (y k : ℕ), y < n → k < 4 →
      4 * (y * src.w + x) + 3 < acc.length →
      ((List.range n).foldl (fun a y => setGray src.w a x y (grayAt src x y)) acc).getD
          (4 * (y * src.w + x) + k) 0
        = if k = 3 then 255 else grayAt src x y := by
  intro n
  induction n with
  | zero => intro acc y k hy _ _; exact absurd hy (Nat.not_lt_zero y)
  | succ n ih =>
    intro acc y k hy hk hlen
    rw [List.range_succ, List.foldl_append]
    simp only [List.foldl_cons, List.foldl_nil]
    rcases Nat.lt_succ_iff_lt_or_eq.mp hy with hy' | rfl
    · rw [setGray]
      have hmul : y * src.w + src.w ≤ n * src.w := by
        have h1 : (y + 1) * src.w ≤ n * src.w :=
          Nat.mul_le_mul_right src.w (by omega)
        rw [Nat.succ_mul] at h1
        exact h1
      rw [writePix_getD_other _ _ _ _ (by left; omega)]
      exact ih acc y k hy' hk hlen
    · rw [setGray]
      rw [writePix_getD_hit _ _ _ _ hk
        (by rw [grayInner_length]; exact hlen)]

theorem grayOuter_length (src : Img) :
    ∀ (n : ℕ) (start : List ℕ),
      ((List.range n).foldl (gsStep src) start).length = start.length := by
  intro n
  induction n with
  | zero => intro start; rfl
  | succ n ih =>
    intro start
    rw [List.range_succ, List.foldl_append]
    simp only [List.foldl_cons, List.foldl_nil]
    rw [gsStep, grayInner_length, ih]

theorem grayOuter_getD_hit (src : Img) :
    ∀ (n : ℕ) (start : List ℕ) (x y k : ℕ), x < n → n ≤ src.w → y < src.h → k < 4 →
      4 * (y * src.w + x) + 3 < start.length →
      ((List.range n).foldl (gsStep src) start).getD (4 * (y * src.w + x) + k) 0
        = if k = 3 then 255 else grayAt src x y := by
  intro n
  induction n with
  | zero => intro start x y k hx _ _ _ _; exact absurd hx (Nat.not_lt_zero x)
  | succ n ih =>
    intro start x y k hx hn hy hk hlen
    have hw : 0 < src.w := by omega
    rw [List.range_succ, List.foldl_append]
    simp only [List.foldl_cons, List.foldl_nil]
    rcases Nat.lt_succ_iff_lt_or_eq.mp hx with hx' | rfl
    · rw [gsStep]
      rw [grayInner_getD_other src n src.h _ _ ?side]
      · exact ih start x y k hx' (by omega) hy hk hlen
      case side =>
        intro y' hy'
        rcases Nat.lt_trichotomy y' y with h1 | rfl | h1
        · have hmul : y' * src.w + src.w ≤ y * src.w := by
            have := Nat.mul_le_mul_right src.w (show y' + 1 ≤ y by omega)
            rwa [Nat.succ_mul] at this
          right; omega
        · left; omega
        · have hmul : y * src.w + src.w ≤ y' * src.w := by
            have := Nat.mul_le_mul_right src.w (show y + 1 ≤ y' by omega)
            rwa [Nat.succ_mul] at this
          left; omega
    · rw [gsStep]
      rw [grayInner_getD_hit src x hw src.h _ y k hy hk
        (by rw [grayOuter_length]; exact hlen)]

theorem Grayscale_pix (src : Img) :
    (Grayscale src).pix =
      (List.range src.w).foldl (gsStep src) (List.replicate (4 * src.w * src.h) 0) := rfl

theorem Grayscale_length (src : Img) :
    (Grayscale src).pix.length = 4 * src.w * src.h := by
  rw [Grayscale_pix, grayOuter_length, List.length_replicate]

theorem grayscale_getD (src : Img) (x y k : ℕ) (hx : x < src.w) (hy : y < src.h)
    (hk : k < 4) :
    (Grayscale src).pix.getD (4 * (y * src.w + x) + k) 0
      = if k = 3 then 255 else grayAt src x y := by
  rw [Grayscale_pix]
  apply grayOuter_getD_hit src src.w _ x y k hx le_rfl hy hk
  rw [List.length_replicate]
  have h1 : y * src.w + src.w ≤ src.w * src.h := by
    have := Nat.mul_le_mul_right src.w (show y + 1 ≤ src.h by omega)
    rw [Nat.succ_mul, Nat.mul_comm src.h src.w] at this
    exact this
  rw [Nat.mul_assoc]
  omega

theorem grayscale_getD0 (src : Img) (x y : ℕ) (hx : x < src.w) (hy : y < src.h) :
    (Grayscale src).pix.getD (4 * (y * src.w + x)) 0 = grayAt src x y := by
  simpa using grayscale_getD src x y 0 hx hy (by omega)

theorem grayscale_getD1 (src : Img) (x y : ℕ) (hx : x < src.w) (hy : y < src.h) :
    (Grayscale src).pix.getD (4 * (y * src.w + x) + 1) 0 = grayAt src x y := by
  simpa using grayscale_getD src x y 1 hx hy (by omega)

theorem grayscale_getD2 (src : Img) (x y : ℕ) (hx : x < src.w) (hy : y < src.h) :
    (Grayscale src).pix.getD (4 * (y * src.w + x) + 2) 0 = grayAt src x y := by
  simpa using grayscale_getD src x y 2 hx hy (by omega)

theorem grayscale_getD3 (src : Img) (x y : ℕ) (hx : x < src.w) (hy : y < src.h) :
    (Grayscale src).pix.getD (4 * (y * src.w + x) + 3) 0 = 255 := by
  simpa using grayscale_getD src x y 3 hx hy (by omega)

theorem grayAt_grayscale (src : Img) (x y : ℕ) (hx : x < src.w) (hy : y < src.h) :
    grayAt (Grayscale src) x y =
      grayByte (grayAt src x y) (grayAt src x y) (grayAt src x y) 255 := by
  have hgw : (Grayscale src).w = src.w := rfl
  conv_lhs => rw [grayAt]
  rw [hgw]
  simp only [byteAt]
  rw [grayscale_getD0 src x y hx hy, grayscale_getD1 src x y hx hy,
    grayscale_getD2 src x y hx hy, grayscale_getD3 src x y hx hy]

theorem grayByte_fixpoint : ∀ γ, γ < 256 → γ ≠ 0 → grayByte γ γ γ 255 = γ := by decide

theorem Img.ext2 (a b : Img) (h1 : a.w = b.w) (h2 : a.h = b.h) (h3 : a.pix = b.pix) :
    a = b := by
  cases a; cases b; simp_all

theorem list_ext_getD (l l' : List ℕ) (h : l.length = l'.length)
    (h2 : ∀ i, l.getD i 0 = l'.getD i 0) : l = l' := by
  apply List.ext_getElem h
  intro i h1 h1'
  have := h2 i
  rwa [List.getD_eq_getElem l 0 h1, List.getD_eq_getElem l' 0 h1'] at this

/-- C4 (amended): `Grayscale` is idempotent on every image whose per-pixel
gray output is a byte in `[1, 255]`; with a zero luma output the second
pass substitutes the (always 255) alpha for the premultiplied red channel
and produces 76 instead, so idempotence fails in general. -/
theorem C4_grayscale_idempotent_on_nonzero_luma (src : Img)
    (h : ∀ x, x < src.w → ∀ y, y < src.h →
      grayAt src x y ≠ 0 ∧ grayAt src x y ≤ 255) :
    Grayscale (Grayscale src) = Grayscale src := by
  have hgw : (Grayscale src).w = src.w := rfl
  have hgh : (Grayscale src).h = src.h := rfl
  have hpix : (Grayscale (Grayscale src)).pix = (Grayscale src).pix := by
    apply list_ext_getD
    · have hL := Grayscale_length (Grayscale src)
      rw [hgw, hgh] at hL
      rw [hL, Grayscale_length]
    · intro i
      by_cases hi : i < 4 * src.w * src.h
      · have hw0 : 0 < src.w := by
          rcases Nat.eq_zero_or_pos src.w with h0 | h0
          · rw [h0] at hi; simp at hi
          · exact h0
        have hk4 : i % 4 < 4 := Nat.mod_lt _ (by norm_num)
        have hxw : i / 4 % src.w < src.w := Nat.mod_lt _ hw0
        have hyh : i / 4 / src.w < src.h := by
          have hq : i / 4 < src.w * src.h := by
            rw [Nat.mul_assoc] at hi
            omega
          exact Nat.div_lt_of_lt_mul hq
        have hqd : (i / 4 / src.w) * src.w + i / 4 % src.w = i / 4 := by
          have := Nat.div_add_mod (i / 4) src.w
          rw [Nat.mul_comm src.w (i / 4 / src.w)] at this
          exact this
        have hid : 4 * (i / 4) + i % 4 = i := Nat.div_add_mod i 4
        have hi' : i = 4 * ((i / 4 / src.w) * src.w + i / 4 % src.w) + i % 4 := by
          omega
        rw [hi']
        have hL := grayscale_getD (Grayscale src) (i / 4 % src.w) (i / 4 / src.w) (i % 4)
          (by rw [hgw]; exact hxw) (by rw [hgh]; exact hyh) hk4
        rw [hgw] at hL
        have hR := grayscale_getD src (i / 4 % src.w) (i / 4 / src.w) (i % 4) hxw hyh hk4
        rw [hL, hR]
        by_cases h3 : i % 4 = 3
        · simp [h3]
        · simp only [h3, if_false]
          rw [grayAt_grayscale src _ _ hxw hyh]
          obtain ⟨hnz, hle⟩ := h _ hxw _ hyh
          exact grayByte_fixpoint _ (by omega) hnz
      · have hlenL : (Grayscale (Grayscale src)).pix.length ≤ i := by
          have := Grayscale_length (Grayscale src)
          rw [hgw, hgh] at this
          omega
        have hlenR : (Grayscale src).pix.length ≤ i := by
          rw [Grayscale_length]; omega
        rw [List.getD_eq_default _ _ hlenL, List.getD_eq_default _ _ hlenR]
  exact Img.ext2 _ _ rfl rfl hpix

/-- Witness for `C4_grayscale_idempotent_on_nonzero_luma` on the 1×1 image
with pixel `(10, 10, 10, 255)`, whose gray output byte is 10. -/
theorem C4_grayscale_idempotent_witness :
    (∀ x, x < (Img.mk 1 1 [10, 10, 10, 255]).w → ∀ y, y < (Img.mk 1 1 [10, 10, 10, 255]).h →
      grayAt (Img.mk 1 1 [10, 10, 10, 255]) x y ≠ 0 ∧
      grayAt (Img.mk 1 1 [10, 10, 10, 255]) x y ≤ 255) ∧
    Grayscale (Grayscale (Img.mk 1 1 [10, 10, 10, 255])) =
      Grayscale (Img.mk 1 1 [10, 10, 10, 255]) :=
  ⟨by decide, C4_grayscale_idempotent_on_nonzero_luma _ (by decide)⟩

/-- C4 (counterexample): on the 1×1 image with pixel `(1, 0, 0, 255)` the
first pass produces the gray byte 0, and the second pass turns it into 76
through the `r == 0` alpha substitution, so `Grayscale` is not idempotent. -/
theorem C4_counterexample_not_idempotent :
    Grayscale (Grayscale ⟨1, 1, [1, 0, 0, 255]⟩) ≠ Grayscale ⟨1, 1, [1, 0, 0, 255]⟩ := by
  decide

/-- C5 (amended): for every in-bounds pixel `(x, y)`, `Grayscale` writes
`(γ, γ, γ, 255)` at that pixel, where `γ` is the float32 luma of the
16-bit premultiplied channels (with the `r == 0` alpha substitution)
divided by 256 and truncated — not the spec's rounded luma of the stored
bytes, and with the alpha byte forced to 255 rather than preserved. -/
theorem C5_grayscale_writes_premultiplied_luma (src : Img) (x y : ℕ)
    (hx : x < src.w) (hy : y < src.h) :
    byteAt (Grayscale src) (4 * (y * src.w + x)) = grayAt src x y ∧
    byteAt (Grayscale src) (4 * (y * src.w + x) + 1) = grayAt src x y ∧
    byteAt (Grayscale src) (4 * (y * src.w + x) + 2) = grayAt src x y ∧
    byteAt (Grayscale src) (4 * (y * src.w + x) + 3) = 255 :=
  ⟨grayscale_getD0 src x y hx hy, grayscale_getD1 src x y hx hy,
    grayscale_getD2 src x y hx hy, grayscale_getD3 src x y hx hy⟩

/-- Witness for `C5_grayscale_writes_premultiplied_luma` on a 1×1 image. -/
theorem C5_grayscale_writes_witness :
    byteAt (Grayscale ⟨1, 1, [0, 0, 5, 7]⟩) (4 * (0 * (Img.mk 1 1 [0, 0, 5, 7]).w + 0))
        = grayAt ⟨1, 1, [0, 0, 5, 7]⟩ 0 0 ∧
    byteAt (Grayscale ⟨1, 1, [0, 0, 5, 7]⟩) (4 * (0 * (Img.mk 1 1 [0, 0, 5, 7]).w + 0) + 1)
        = grayAt ⟨1, 1, [0, 0, 5, 7]⟩ 0 0 ∧
    byteAt (Grayscale ⟨1, 1, [0, 0, 5, 7]⟩) (4 * (0 * (Img.mk 1 1 [0, 0, 5, 7]).w + 0) + 2)
        = grayAt ⟨1, 1, [0, 0, 5, 7]⟩ 0 0 ∧
    byteAt (Grayscale ⟨1, 1, [0, 0, 5, 7]⟩) (4 * (0 * (Img.mk 1 1 [0, 0, 5, 7]).w + 0) + 3)
        = 255 :=
  C5_grayscale_writes_premultiplied_luma ⟨1, 1, [0, 0, 5, 7]⟩ 0 0 (by decide) (by decide)

/-- C5 (counterexample): on the 1×1 image with pixel `(0, 0, 5, 7)` the
sole output pixel is `(2, 2, 2, 255)`, not `(luma, luma, luma, 7)` with
`luma = round(0.299·0 + 0.587·0 + 0.114·5) = 1`: the premultiplied
channels, the `r == 0` alpha substitution and the forced alpha 255 all
diverge from the claim. -/
theorem C5_counterexample_luma_and_alpha :
    (Grayscale ⟨1, 1, [0, 0, 5, 7]⟩).pix ≠
      [specLuma 0 0 5, specLuma 0 0 5, specLuma 0 0 5, 7] := by
  decide

/-- Characterisation of a Euclidean step: a value `V ≤ m` congruent to `X`
modulo `m` with `X` not divisible by `m` is `X % m`. -/
theorem mod_eq_helper (V X m k : ℕ) (hle : V ≤ m) (hne : X % m ≠ 0)
    (hk : X = V + m * k) : V = X % m := by
  have hlt : V < m := by
    rcases Nat.lt_or_ge V m with h | h
    · exact h
    · exfalso
      apply hne
      have hVm : V = m := le_antisymm hle h
      rw [hk, hVm]
      have hmm : m + m * k = m * (k + 1) := by ring
      rw [hmm, Nat.mul_mod_right]
  rw [hk, Nat.add_mul_mod_self_left, Nat.mod_eq_of_lt hlt]

/-- C9: with the state built by `addNoise`, `nextLongRand` is exactly the
Lehmer step `s ↦ 16807·s mod (2^31 − 1)` on every state in
`[1, 2^31 − 2]`, and the generator starts from `randomNum = 1`. -/
theorem C9_lehmer_lcg (s : ℕ) (h1 : 1 ≤ s) (h2 : s ≤ 2 ^ 31 - 2) :
    nextLongRand addNoiseSeed s = 16807 * s % 2147483647 ∧
    addNoiseSeed.randomNum = 1 := by
  refine ⟨?_, rfl⟩
  have hcop : Nat.Coprime 2147483647 16807 := by norm_num [Nat.Coprime]
  have hne : 16807 * s % 2147483647 ≠ 0 := by
    intro h0
    have hdvd : 2147483647 ∣ 16807 * s := Nat.dvd_of_mod_eq_zero h0
    have hds : 2147483647 ∣ s := hcop.dvd_of_dvd_mul_left hdvd
    have := Nat.le_of_dvd (by omega) hds
    omega
  unfold nextLongRand addNoiseSeed
  norm_num only
  split <;> split <;>
    first
    | exact mod_eq_helper _ _ _ (16807 * (s / 65536) / 32768) (by omega) hne (by omega)
    | exact mod_eq_helper _ _ _ (16807 * (s / 65536) / 32768 + 1) (by omega) hne (by omega)
    | exact mod_eq_helper _ _ _ (16807 * (s / 65536) / 32768 + 2) (by omega) hne (by omega)
    | (have hsub : (16807 * (s % 65536) + 16807 * (s / 65536) % 32768 * 65536) % 2147483648
          = 16807 * (s % 65536) + 16807 * (s / 65536) % 32768 * 65536 - 2147483648 := by
        omega
       rw [hsub]
       exact mod_eq_helper _ _ _ (16807 * (s / 65536) / 32768 + 2) (by omega) hne (by omega))

/-- Witness for `C9_lehmer_lcg` at state 1. -/
theorem C9_lehmer_lcg_witness :
    1 ≤ 1 ∧ 1 ≤ 2 ^ 31 - 2 ∧
    (nextLongRand addNoiseSeed 1 = 16807 * 1 % 2147483647 ∧
      addNoiseSeed.randomNum = 1) :=
  ⟨le_rfl, by norm_num, C9_lehmer_lcg 1 le_rfl (by norm_num)⟩

/-- The truncated product `int(float64(S) * 0.33333)` is `(S - 1) / 3` for
every `1 ≤ S ≤ 99999`: one less than `⌊S/3⌋` whenever `3 ∣ S`, and equal
to it otherwise.  (The first sum where this closed form fails is 100003.) -/
theorem c33333_trunc (S : ℤ) (h1 : 1 ≤ S) (h2 : S ≤ 99999) :
    Dy.truncD (Dy.mulD 53 (Dy.i2f 53 S) c33333) = (S - 1) / 3 := by
  have hS0 : (0 : ℤ) ≤ S := by omega
  have hA0 : 0 ≤ (Dy.i2f 53 S).m := by
    have hdef : Dy.i2f 53 S = Dy.norm 53 ⟨S, 0⟩ := rfl
    rw [hdef]
    exact Dy.norm_m_nonneg _ _ hS0
  have hm0 : 0 ≤ (Dy.mulD 53 (Dy.i2f 53 S) c33333).m := by
    have hdef : Dy.mulD 53 (Dy.i2f 53 S) c33333
        = Dy.norm 53 ⟨(Dy.i2f 53 S).m * c33333.m, (Dy.i2f 53 S).e + c33333.e⟩ := rfl
    rw [hdef]
    refine Dy.norm_m_nonneg _ _ ?_
    exact mul_nonneg hA0 (by norm_num [c33333])
  rw [Dy.truncD_eq_floor _ hm0]
  have hcv : Dy.toQ c33333 = 3002369727582815 / 2 ^ 53 := by
    rw [show c33333 = (⟨3002369727582815, -53⟩ : Dy) from rfl, Dy.toQ_mk,
      show ((-53 : ℤ)) = -((53 : ℕ) : ℤ) from rfl, zpow_neg, zpow_natCast]
    ring
  have hk1 : 3 * ((S - 1) / 3) ≤ S - 1 ∧ S - 1 ≤ 3 * ((S - 1) / 3) + 2 ∧
      0 ≤ (S - 1) / 3 ∧ (S - 1) / 3 ≤ 33332 := by omega
  obtain ⟨hk1a, hk1b, hk1c, hk1d⟩ := hk1
  rw [Int.floor_eq_iff]
  have hi := Dy.i2f_err 53 S
  rw [abs_of_nonneg (by exact_mod_cast hS0 : (0:ℚ) ≤ (S:ℚ))] at hi
  rw [abs_le] at hi
  obtain ⟨hiL, hiR⟩ := hi
  have hSQ1 : (1 : ℚ) ≤ (S : ℚ) := by exact_mod_cast h1
  have hSQ2 : (S : ℚ) ≤ 99999 := by exact_mod_cast h2
  have hA0Q : 0 ≤ Dy.toQ (Dy.i2f 53 S) := by nlinarith [hiL]
  have hmul := Dy.mulD_err 53 (Dy.i2f 53 S) c33333
  have hAc0 : 0 ≤ Dy.toQ (Dy.i2f 53 S) * Dy.toQ c33333 := by
    apply mul_nonneg hA0Q
    rw [hcv]
    positivity
  rw [abs_of_nonneg hAc0] at hmul
  rw [abs_le] at hmul
  obtain ⟨hmL, hmR⟩ := hmul
  rw [hcv] at hmL hmR hAc0
  have hkQa : 3 * (((S - 1) / 3 : ℤ) : ℚ) ≤ (S : ℚ) - 1 := by exact_mod_cast hk1a
  have hkQb : (S : ℚ) - 1 ≤ 3 * (((S - 1) / 3 : ℤ) : ℚ) + 2 := by exact_mod_cast hk1b
  have hkQc : (0 : ℚ) ≤ (((S - 1) / 3 : ℤ) : ℚ) := by exact_mod_cast hk1c
  have hkQd : (((S - 1) / 3 : ℤ) : ℚ) ≤ 33332 := by exact_mod_cast hk1d
  set A := Dy.toQ (Dy.i2f 53 S) with hAdef
  set B := Dy.toQ (Dy.mulD 53 (Dy.i2f 53 S) c33333) with hBdef
  set K := (((S - 1) / 3 : ℤ) : ℚ) with hKdef
  constructor
  · -- lower bound: K ≤ B
    have hAlow : (S : ℚ) * (1 - 1 / 2 ^ 53) ≤ A := by linarith
    have hBlow : A * (3002369727582815 / 2 ^ 53) * (1 - 1 / 2 ^ 53) ≤ B := by
      linarith
    have hchain : (S : ℚ) * (1 - 1 / 2 ^ 53) * (3002369727582815 / 2 ^ 53) *
        (1 - 1 / 2 ^ 53) ≤ B := by
      have hpos : (0 : ℚ) < (3002369727582815 / 2 ^ 53) * (1 - 1 / 2 ^ 53) := by
        norm_num
      nlinarith [hAlow, hBlow]
    have hSlow : 3 * K + 1 ≤ (S : ℚ) := by linarith
    have hnum : (33332 : ℚ) *
        (1 - 3 * ((1 - 1 / 2 ^ 53) * (3002369727582815 / 2 ^ 53) * (1 - 1 / 2 ^ 53))) ≤
        (1 - 1 / 2 ^ 53) * (3002369727582815 / 2 ^ 53) * (1 - 1 / 2 ^ 53) := by
      norm_num
    have hfin : K ≤ (S : ℚ) * (1 - 1 / 2 ^ 53) * (3002369727582815 / 2 ^ 53) *
        (1 - 1 / 2 ^ 53) := by
      nlinarith [hSlow, hkQc, hkQd, hnum]
    linarith
  · -- upper bound: B < K + 1
    have hAhigh : A ≤ (S : ℚ) * (1 + 1 / 2 ^ 53) := by linarith
    have hBhigh : B ≤ A * (3002369727582815 / 2 ^ 53) * (1 + 1 / 2 ^ 53) := by
      linarith
    have hchain : B ≤ (S : ℚ) * (1 + 1 / 2 ^ 53) * (3002369727582815 / 2 ^ 53) *
        (1 + 1 / 2 ^ 53) := by
      have hpos : (0 : ℚ) < (3002369727582815 / 2 ^ 53) * (1 + 1 / 2 ^ 53) := by
        norm_num
      nlinarith [hAhigh, hBhigh, hA0Q]
    have hShigh : (S : ℚ) ≤ 3 * K + 3 := by linarith
    have hfin : (S : ℚ) * (1 + 1 / 2 ^ 53) * (3002369727582815 / 2 ^ 53) *
        (1 + 1 / 2 ^ 53) < K + 1 := by
      nlinarith [hShigh, hkQc, hSQ1]
    linarith

/-- C3 (amended): for every triangle whose coordinate sums lie in
`[1, 99999]` (any triangle of an image under ~33000 px a side), both Draw
paths sample the fill colour at byte index
`((ΣX−1)/3 + ((ΣY−1)/3)·width)·4`: one pixel before the exact-centroid
floor whenever 3 divides the coordinate sum, equal to it otherwise. -/
theorem C3_sample_index_closed_form (width : ℤ) (p0 p1 p2 : Node)
    (hx1 : 1 ≤ p0.X + p1.X + p2.X) (hx2 : p0.X + p1.X + p2.X ≤ 99999)
    (hy1 : 1 ≤ p0.Y + p1.Y + p2.Y) (hy2 : p0.Y + p1.Y + p2.Y ≤ 99999) :
    sampleIndex width p0 p1 p2 =
      ((p0.X + p1.X + p2.X - 1) / 3 + ((p0.Y + p1.Y + p2.Y - 1) / 3) * width) * 4 := by
  unfold sampleIndex
  rw [c33333_trunc _ hx1 hx2, c33333_trunc _ hy1 hy2]

/-- Witness for `C3_sample_index_closed_form` on the triangle
(0,0)-(4,0)-(2,2) at width 4. -/
theorem C3_sample_index_witness :
    1 ≤ (newNode 0 0).X + (newNode 4 0).X + (newNode 2 2).X ∧
    (newNode 0 0).X + (newNode 4 0).X + (newNode 2 2).X ≤ 99999 ∧
    sampleIndex 4 (newNode 0 0) (newNode 4 0) (newNode 2 2) =
      (((newNode 0 0).X + (newNode 4 0).X + (newNode 2 2).X - 1) / 3 +
        (((newNode 0 0).Y + (newNode 4 0).Y + (newNode 2 2).Y - 1) / 3) * 4) * 4 :=
  ⟨by decide, by decide,
    C3_sample_index_closed_form 4 (newNode 0 0) (newNode 4 0) (newNode 2 2)
      (by decide) (by decide) (by decide) (by decide)⟩

/-- C3 (counterexample): the triangle (0,0)-(4,0)-(2,2) is emitted by the
triangulator for a 4×4 rectangle with the single point (2,2); its x sum is
6 and `int(6 * 0.33333) = 1 ≠ 2 = ⌊6/3⌋`, so the shader samples byte
index 4 while the exact-centroid formula of the claim gives byte index 8. -/
theorem C3_counterexample_centroid_sampling :
    newTriangle (newNode 0 0) (newNode 4 0) (newNode 2 2) ∈
      ((Delaunay.Init 4 4).Insert [⟨2, 2⟩]).GetTriangles ∧
    sampleIndex 4 (newNode 0 0) (newNode 4 0) (newNode 2 2) ≠
      specSampleIndex 4 (newNode 0 0) (newNode 4 0) (newNode 2 2) := by
  constructor
  · decide
  · decide

/-- A fold whose every step leaves byte `j` unchanged leaves byte `j`
unchanged. -/
theorem foldl_getD_invar {α : Type} (g : List ℕ → α → List ℕ) (j : ℕ)
    (hg : ∀ acc a, (g acc a).getD j 0 = acc.getD j 0) :
    ∀ (l : List α) (acc : List ℕ), (l.foldl g acc).getD j 0 = acc.getD j 0 := by
  intro l
  induction l with
  | nil => intro acc; rfl
  | cons a l ih => intro acc; rw [List.foldl_cons, ih, hg]

/-- Every write of one row of `convolutionFilter` lands on a byte index
divisible by 4, so any other byte survives the row. -/
theorem convStep_getD (mat : List (Option Dy)) (cpy : List ℤ)
    (w h size dim : ℕ) (acc : List ℕ) (y j : ℕ) (hj : j % 4 ≠ 0) :
    (convStep mat cpy w h size dim acc y).getD j 0 = acc.getD j 0 := by
  unfold convStep
  apply foldl_getD_invar
  intro acc2 x
  exact getD_set_other _ _ _ _ (by omega)

/-- C7: `convolutionFilter` modifies only channel 0: every byte whose
index is not a multiple of 4 — the G, B and A bytes of every pixel — is
identical before and after the filter runs, for every matrix, divisor and
image. -/
theorem C7_convolution_writes_only_channel0 (matrix : List Dy) (img : Img)
    (divisor : Dy) (j : ℕ) (hj : j % 4 ≠ 0) :
    byteAt (convolutionFilter matrix img divisor) j = byteAt img j :=
  foldl_getD_invar _ j
    (fun acc y => convStep_getD _ _ _ _ _ _ acc y j hj) (List.range img.h) img.pix

/-- Witness for `C7_convolution_writes_only_channel0`: the G byte of a 1×1
image under the 1×1 identity matrix. -/
theorem C7_convolution_writes_witness :
    1 % 4 ≠ 0 ∧
    byteAt (convolutionFilter [⟨1, 0⟩] ⟨1, 1, [9, 8, 7, 6]⟩ ⟨1, 0⟩) 1 =
      byteAt ⟨1, 1, [9, 8, 7, 6]⟩ 1 :=
  ⟨by decide, C7_convolution_writes_only_channel0 [⟨1, 0⟩] ⟨1, 1, [9, 8, 7, 6]⟩ ⟨1, 0⟩ 1
    (by decide)⟩

/-- C8: a zero divisor is not an error.  `convolutionFilter` returns
nothing and can signal nothing: with `divisor = 0` (the pipeline passes
`float64(p.EdgeFactor)` at process.go:308, and `EdgeFactor = 0` is
admissible) `divscalar = 1/0 = +Inf`, every scaled weight is non-finite,
and the filter still runs to completion and overwrites channel 0 of every
pixel with implementation-specific values — here on the edge matrix of
size 0 and a 1×1 image. -/
theorem C8_zero_divisor_not_an_error :
    (∀ w ∈ scaleMatrix (setEdgeMatrix 0) ⟨0, 0⟩, w = none) ∧
    (convolutionFilter (setEdgeMatrix 0) ⟨1, 1, [9, 8, 7, 6]⟩ ⟨0, 0⟩).pix.length = 4 := by
  exact ⟨by decide, by decide⟩

/-- Rounding to `p` significant bits keeps a value that already fits. -/
theorem norm_eq_of_lt (p : ℕ) (x : Dy) (h : x.m.natAbs < 2 ^ p) :
    Dy.norm p x = x := by
  unfold Dy.norm
  rw [if_pos]
  by_cases h0 : x.m.natAbs = 0
  · unfold Dy.bitlen
    rw [if_pos h0]
    omega
  · have hb := Dy.bitlen_bounds x.m.natAbs (by omega)
    by_contra hc
    push_neg at hc
    have hpow : 2 ^ p ≤ 2 ^ (Dy.bitlen x.m.natAbs - 1) :=
      Nat.pow_le_pow_right (by norm_num) (by omega)
    omega

/-- `int(float64(L) * 0.875)` is exactly `7L/8` for candidate counts up to
`2^49` (both float64 operands and the product are exact). -/
theorem rate_trunc (L : ℕ) (h : L ≤ 2 ^ 49) :
    Dy.truncD (Dy.mulD 53 (Dy.i2f 53 (L : ℤ)) pointRate) = ((7 * L / 8 : ℕ) : ℤ) := by
  have hi : Dy.i2f 53 (L : ℤ) = ⟨(L : ℤ), 0⟩ := by
    unfold Dy.i2f
    exact norm_eq_of_lt 53 ⟨(L : ℤ), 0⟩ (by simpa using by omega)
  have hmul : Dy.mulD 53 (Dy.i2f 53 (L : ℤ)) pointRate = ⟨(L : ℤ) * 7, -3⟩ := by
    rw [hi]
    unfold Dy.mulD
    exact norm_eq_of_lt 53 ⟨(L : ℤ) * 7, 0 + -3⟩ (by
      rw [show ((L : ℤ) * 7).natAbs = L * 7 from by
        rw [Int.natAbs_mul]
        simp]
      omega)
  rw [hmul]
  unfold Dy.truncD
  rw [if_neg (by norm_num), if_neg (show ¬((L : ℤ) * 7 < 0) by omega)]
  rw [show ((L : ℤ) * 7).natAbs = L * 7 from by rw [Int.natAbs_mul]; simp]
  rw [show (2 : ℕ) ^ (-(-3 : ℤ)).toNat = 8 from rfl]
  congr 1
  omega

/-- C6 (amended): the sample-point generator has no rate parameter — it
uses the constant `pointRate = 0.875` regardless of any configured
PointRate.  For every image, threshold and `maxPoints ≥ 1` it returns at
most `min(⌊L·0.875⌋, maxPoints)` points, where `L` is the candidate
count — in particular never more than `maxPoints`. -/
theorem C6_max_points_respected (img : Img) (threshold maxPoints : ℕ)
    (rng : ℕ → ℕ) (hN : 1 ≤ maxPoints)
    (hL : (edgeCandidates img threshold).length ≤ 2 ^ 49) :
    (getEdgePoints img threshold maxPoints rng).length ≤
      min (7 * (edgeCandidates img threshold).length / 8) maxPoints ∧
    (getEdgePoints img threshold maxPoints rng).length ≤ maxPoints := by
  unfold getEdgePoints
  simp only [List.length_map, List.length_range]
  rw [rate_trunc _ hL]
  constructor
  · by_cases hc : (maxPoints : ℤ) <
        ((7 * (edgeCandidates img threshold).length / 8 : ℕ) : ℤ)
    · rw [if_pos hc]
      push_cast at hc
      omega
    · rw [if_neg hc]
      push_cast at hc
      omega
  · by_cases hc : (maxPoints : ℤ) <
        ((7 * (edgeCandidates img threshold).length / 8 : ℕ) : ℤ)
    · rw [if_pos hc]
      push_cast at hc
      omega
    · rw [if_neg hc]
      push_cast at hc
      omega

/-- Witness for `C6_max_points_respected`: a 2×2 all-bright red-channel
image, threshold 10, `maxPoints = 1`. -/
theorem C6_max_points_witness :
    1 ≤ 1 ∧
    (edgeCandidates ⟨2, 2, [255, 0, 0, 0, 255, 0, 0, 0, 255, 0, 0, 0, 255, 0, 0, 0]⟩
      10).length ≤ 2 ^ 49 ∧
    ((getEdgePoints ⟨2, 2, [255, 0, 0, 0, 255, 0, 0, 0, 255, 0, 0, 0, 255, 0, 0, 0]⟩
        10 1 (fun _ => 0)).length ≤
      min (7 * (edgeCandidates
        ⟨2, 2, [255, 0, 0, 0, 255, 0, 0, 0, 255, 0, 0, 0, 255, 0, 0, 0]⟩ 10).length / 8)
        1 ∧
      (getEdgePoints ⟨2, 2, [255, 0, 0, 0, 255, 0, 0, 0, 255, 0, 0, 0, 255, 0, 0, 0]⟩
        10 1 (fun _ => 0)).length ≤ 1) :=
  ⟨le_rfl, by decide,
    C6_max_points_respected _ 10 1 (fun _ => 0) le_rfl (by decide)⟩

/-- C6 (counterexample): the claimed bound for every point rate
`ρ ∈ (0,1]` fails, because the generator ignores the configured rate and
hard-codes 0.875.  With `ρ = 1/8` (so `0 < 1` and `1 ≤ 8`, and
`⌊L·ρ⌋ = L·1/8` in integer arithmetic), the 2×2 all-bright image has
`L = 4` candidates and `maxPoints = 3`, yet the generator returns 3
points, exceeding `min(⌊4·(1/8)⌋, 3) = 0`. -/
theorem C6_counterexample_point_rate_ignored :
    0 < 1 ∧ (1 : ℕ) ≤ 8 ∧
    ¬((getEdgePoints ⟨2, 2, [255, 0, 0, 0, 255, 0, 0, 0, 255, 0, 0, 0, 255, 0, 0, 0]⟩
        10 3 (fun _ => 0)).length ≤
      min ((edgeCandidates
          ⟨2, 2, [255, 0, 0, 0, 255, 0, 0, 0, 255, 0, 0, 0, 255, 0, 0, 0]⟩
          10).length * 1 / 8) 3) := by
  exact ⟨by decide, by decide, by decide⟩

end TriangleGo
